import Mathlib

/-!
Verification of the core retrieval and evidence-verification pipeline of
Readily (`src/app.py`): the question segmenter (`extract_questions_from_pdf`),
the snippet selector (`_pick_snippets`), the context assembler
(`find_relevant_context`) and the answer verifier (`parse_gemini_response`).

Strings are modelled as `List Char`.  The Python regular expressions used by
the program are embedded as direct scanning functions whose semantics follow
the `re` engine on the concrete pattern in question (leftmost match, with the
greedy/lazy quantifier resolution worked out per pattern and recorded in the
doc comment of each function).
-/

namespace Readily

/-- Python `\s` on the ASCII range (the same class backs `str.strip()` and
`str.split()` on the text this program handles). -/
def isPySpace (c : Char) : Bool :=
  c = ' ' || c = '\t' || c = '\n' || c = '\r' || c = '\x0b' || c = '\x0c'

/-- Python `str.lower` (ASCII range). -/
def lower (s : List Char) : List Char := s.map Char.toLower

/-- Python `str.strip()`: remove whitespace from both ends. -/
def pyStrip (s : List Char) : List Char :=
  ((s.dropWhile isPySpace).reverse.dropWhile isPySpace).reverse

/-- Maximal runs of characters satisfying `p` (used for `str.split()` and for
`re.findall(r"[a-z0-9]+", ...)`). -/
def runsAux (p : Char → Bool) : List Char → List Char → List (List Char)
  | [], acc => if acc.isEmpty then [] else [acc.reverse]
  | c :: t, acc =>
    if p c then runsAux p t (c :: acc)
    else if acc.isEmpty then runsAux p t [] else acc.reverse :: runsAux p t []

/-- Python `str.split()` with no argument: maximal non-whitespace runs. -/
def pySplit (s : List Char) : List (List Char) :=
  runsAux (fun c => ! isPySpace c) s []

/-- Alphanumeric lower-case token characters, class `[a-z0-9]`. -/
def isTokChar (c : Char) : Bool :=
  ('a' ≤ c && c ≤ 'z') || ('0' ≤ c && c ≤ '9')

/-- The program's `_tokenize`: `re.findall(r"[a-z0-9]+", text.lower())`. -/
def tokenize (text : List Char) : List (List Char) :=
  runsAux isTokChar (lower text) []

/-- Python `hay.find(needle)` (code-point index of the leftmost occurrence,
`none` standing for `-1`). -/
def firstInfixPos (needle : List Char) : List Char → Option Nat
  | [] => if needle.isPrefixOf ([] : List Char) then some 0 else none
  | c :: t =>
    if needle.isPrefixOf (c :: t) then some 0
    else (firstInfixPos needle t).map (· + 1)

theorem length_dropWhile_le (p : Char → Bool) (l : List Char) :
    (l.dropWhile p).length ≤ l.length := by
  induction l with
  | nil => simp
  | cons c t ih =>
    rw [List.dropWhile]
    cases p c <;> simp <;> omega

/-- Helper for `collapseWs`; the flag records whether the previous character
belonged to a whitespace run whose single replacement space was already
emitted. -/
def collapseWsAux : Bool → List Char → List Char
  | _, [] => []
  | inRun, c :: t =>
    if isPySpace c then
      if inRun then collapseWsAux true t else ' ' :: collapseWsAux true t
    else c :: collapseWsAux false t

/-- Python `re.sub(r"\s+", " ", s)`: collapse every whitespace run to one
space. -/
def collapseWs (s : List Char) : List Char := collapseWsAux false s

/-- Python `" ".join(xs)`. -/
def joinSpace : List (List Char) → List Char
  | [] => []
  | [w] => w
  | w :: ws => w ++ ' ' :: joinSpace ws

/-- Python `sep.join(xs)` for a general separator. -/
def joinWith (sep : List Char) : List (List Char) → List Char
  | [] => []
  | [x] => x
  | x :: xs => x ++ sep ++ joinWith sep xs

/-- The stop-word set of `_pick_snippets`. -/
def stopWords : List (List Char) :=
  ["the", "a", "an", "and", "or", "of", "to", "in", "for", "on", "by",
   "with", "is", "are", "be", "as", "at", "that", "this", "it", "from"].map String.data

/-- The sliding windows of length `n` over the filtered question tokens:
Python `range(0, max(0, len(q_toks_nostop) - n + 1))` indexed slices, each
joined with single spaces. -/
def windowsOfLen (n : Nat) (toks : List (List Char)) : List (List Char) :=
  (List.range (toks.length + 1 - n)).map (fun i => joinSpace ((toks.drop i).take n))

/-- Candidate phrases of `_pick_snippets` in generation order (n = 5, 4, 3,
window start ascending); the program inserts these into a Python `set`. -/
def genPhrases (question : List Char) : List (List Char) :=
  let toks := (tokenize question).filter (fun t => ! stopWords.contains t)
  windowsOfLen 5 toks ++ windowsOfLen 4 toks ++ windowsOfLen 3 toks

/-- Contents of the candidate-phrase set (duplicates removed). -/
def phraseSetElems (question : List Char) : List (List Char) :=
  (genPhrases question).dedup

/-- The phrase-window loop of `_pick_snippets`.  `order` is the iteration
order of the Python `set` of candidate phrases: CPython leaves that order
unspecified (it varies with the string hash seed across processes), so the
embedding takes the enumeration as an explicit parameter.  Each found phrase
contributes the window `content[max(0, idx-400) : min(len, idx+len(ph)+500)]`
and the loop breaks once `per_doc` windows are collected. -/
def phraseWindows (content lcContent : List Char) (perDoc : Nat) :
    List (List Char) → List (List Char) → List (List Char)
  | [], windows => windows.reverse
  | ph :: rest, windows =>
    if ph.isEmpty then phraseWindows content lcContent perDoc rest windows
    else
      match firstInfixPos ph lcContent with
      | none => phraseWindows content lcContent perDoc rest windows
      | some idx =>
        if perDoc ≤
            (((content.take (min content.length (idx + ph.length + 500))).drop (idx - 400))
              :: windows).length then
          (((content.take (min content.length (idx + ph.length + 500))).drop (idx - 400))
            :: windows).reverse
        else
          phraseWindows content lcContent perDoc rest
            (((content.take (min content.length (idx + ph.length + 500))).drop (idx - 400))
              :: windows)

/-- Index of the last `'\n'` in a string, if any. -/
def lastNlPos : List Char → Option Nat
  | [] => none
  | c :: t =>
    match lastNlPos t with
    | some k => some (k + 1)
    | none => if c = '\n' then some 0 else none

/-- Python `re.split(r"\n\s*\n", content)`.  A match starts at a `'\n'`
whose following whitespace run contains another `'\n'`; greedy backtracking
makes the match consume that run up to and including its last `'\n'`.  The
first argument is recursion fuel: every step consumes at least one character
of the scanned string, so any fuel of at least the string's length makes the
zero-fuel arm unreachable (`splitParas` passes the length). -/
def splitParasAux : Nat → List Char → List Char → List (List Char)
  | 0, s, acc => [acc.reverse ++ s]
  | _ + 1, [], acc => [acc.reverse]
  | fuel + 1, c :: t, acc =>
    if c = '\n' then
      match lastNlPos (t.takeWhile isPySpace) with
      | some k => acc.reverse :: splitParasAux fuel (t.drop (k + 1)) []
      | none => splitParasAux fuel t (c :: acc)
    else splitParasAux fuel t (c :: acc)

/-- Python `re.split(r"\n\s*\n", content)`. -/
def splitParas (content : List Char) : List (List Char) :=
  splitParasAux content.length content []

/-- Stable descending insertion: `x` goes after every element of at least its
score (reproducing Python's stable `sorted(..., reverse=True)`). -/
def insertByScoreDesc (score : List Char → Nat) (x : List Char) :
    List (List Char) → List (List Char)
  | [] => [x]
  | y :: t =>
    if score y < score x then x :: y :: t
    else y :: insertByScoreDesc score x t

/-- Python `sorted(paras, key=score, reverse=True)` (stable). -/
def sortByScoreDesc (score : List Char → Nat) (l : List (List Char)) :
    List (List Char) :=
  l.foldl (fun acc x => insertByScoreDesc score x acc) []

/-- The program's `_pick_snippets(content, question, per_doc,
max_chars_per_snippet)`; `order` models the Python set iteration order over
the candidate phrases (see `phraseWindows`). -/
def snippetScore (question p : List Char) : Nat :=
  (((tokenize question).dedup).filter (fun t => (tokenize p).contains t)).length

def paragraphsOf (content : List Char) : List (List Char) :=
  ((splitParas content).map pyStrip).filter (fun p => ! p.isEmpty)

def pickSnippets (order : List (List Char)) (content question : List Char)
    (perDoc maxChars : Nat) : List (List Char) :=
  if content.isEmpty then []
  else
    if (phraseWindows content (lower content) perDoc order []).isEmpty then
      if (paragraphsOf content).isEmpty then []
      else
        ((sortByScoreDesc (snippetScore question) (paragraphsOf content)).take perDoc).map
          (List.take maxChars)
    else (phraseWindows content (lower content) perDoc order []).map (List.take maxChars)

theorem phraseWindows_length_le (content lc : List Char) (perDoc : Nat) :
    ∀ (phs ws : List (List Char)), ws.length < perDoc →
      (phraseWindows content lc perDoc phs ws).length ≤ perDoc := by
  intro phs
  induction phs with
  | nil =>
    intro ws h
    rw [phraseWindows]
    simp only [List.length_reverse]
    omega
  | cons ph rest ih =>
    intro ws h
    rw [phraseWindows]
    split
    · exact ih ws h
    · split
      · exact ih ws h
      · split
        · next hle =>
          simp only [List.length_reverse, List.length_cons]
          simp only [List.length_cons] at hle
          omega
        · next hle =>
          refine ih _ ?_
          simp only [List.length_cons] at hle ⊢
          omega

theorem mem_map_take_le (l : List (List Char)) (m : Nat) :
    ∀ s ∈ l.map (List.take m), s.length ≤ m := by
  intro s hs
  rcases List.mem_map.mp hs with ⟨x, _, rfl⟩
  simp only [List.length_take]
  omega

/-- C9: for every phrase iteration order, content and question,
`_pick_snippets` returns at most `per_doc` snippets (for any positive
`per_doc`, in particular the default 3), every returned snippet has length
at most `max_chars_per_snippet`, and empty content yields the empty
sequence — covering both the phrase-window branch and the paragraph
fallback branch. -/
theorem pickSnippets_bounds (order : List (List Char)) (content question : List Char)
    (perDoc maxChars : Nat) (hper : 1 ≤ perDoc) :
    (pickSnippets order content question perDoc maxChars).length ≤ perDoc ∧
    (∀ s ∈ pickSnippets order content question perDoc maxChars, s.length ≤ maxChars) ∧
    (content = [] → pickSnippets order content question perDoc maxChars = []) := by
  refine ⟨?_, ?_, ?_⟩
  · rw [pickSnippets]
    split
    · simp
    · split
      · split
        · simp
        · rw [List.length_map]
          have := List.length_take_le perDoc
            (sortByScoreDesc (snippetScore question) (paragraphsOf content))
          simpa using this
      · rw [List.length_map]
        exact phraseWindows_length_le content (lower content) perDoc order []
          (by simpa using hper)
  · rw [pickSnippets]
    split
    · intro s hs; simp at hs
    · split
      · split
        · intro s hs; simp at hs
        · exact mem_map_take_le _ _
      · exact mem_map_take_le _ _
  · intro hc
    subst hc
    rw [pickSnippets]
    simp

/-- Closed instance discharging the hypothesis of `pickSnippets_bounds`. -/
theorem pickSnippets_bounds_witness :
    (1 ≤ 3) ∧
    ((pickSnippets [] "alpha beta\n\ngamma".data "beta words".data 3 800).length ≤ 3 ∧
     (∀ s ∈ pickSnippets [] "alpha beta\n\ngamma".data "beta words".data 3 800,
        s.length ≤ 800) ∧
     ("alpha beta\n\ngamma".data = [] →
        pickSnippets [] "alpha beta\n\ngamma".data "beta words".data 3 800 = [])) :=
  ⟨by decide,
   pickSnippets_bounds [] "alpha beta\n\ngamma".data "beta words".data 3 800 (by decide)⟩

/-- One stored policy page as `find_relevant_context` reads it from the
store: `doc.get("filename", "Unknown Document")`, `doc.get("page_number",
"N/A")`, `doc.get("content", "")`.  A missing `content` is modelled by the
empty list, which is what the default yields. -/
structure StoreDoc where
  filename : Option (List Char)
  pageNumber : Option Nat
  content : List Char
deriving DecidableEq

def digitChar : Nat → Char
  | 0 => '0' | 1 => '1' | 2 => '2' | 3 => '3' | 4 => '4'
  | 5 => '5' | 6 => '6' | 7 => '7' | 8 => '8' | _ => '9'

/-- Decimal rendering of a natural number (Python `str(n)` inside the
f-string marker). -/
def natCharsAux : Nat → Nat → List Char → List Char
  | 0, n, acc => digitChar n :: acc
  | fuel + 1, n, acc =>
    if n < 10 then digitChar n :: acc
    else natCharsAux fuel (n / 10) (digitChar (n % 10) :: acc)

/-- Decimal rendering of a natural number (Python `str(n)` inside the
f-string marker); `natCharsAux` runs on fuel `n`, which always suffices. -/
def natChars (n : Nat) : List Char := natCharsAux n n []

def fnameOf (d : StoreDoc) : List Char :=
  d.filename.getD "Unknown Document".data

/-- The page field as interpolated into the markers: the decimal digits of
the stored number, or the default string `"N/A"` when the field is
missing. -/
def pageCharsOf (d : StoreDoc) : List Char :=
  match d.pageNumber with
  | some n => natChars n
  | none => "N/A".data

def startMarker (f p : List Char) : List Char :=
  "--- START (Filename: ".data ++ f ++ ", Page: ".data ++ p ++ ") ---".data

def endMarker (f p : List Char) : List Char :=
  "--- END (Filename: ".data ++ f ++ ", Page: ".data ++ p ++ ") ---".data

/-- The `block_text` that `find_relevant_context` builds for one store
result; `mode` is `USE_SNIPPET_RETRIEVAL` and `order` the phrase
iteration order passed through to `_pick_snippets`. -/
def blockOf (mode : Bool) (order : List (List Char)) (question : List Char)
    (d : StoreDoc) : List Char :=
  if mode then
    if (pickSnippets order d.content question 3 800).isEmpty then []
    else
      joinWith "\n\n".data
        ([startMarker (fnameOf d) (pageCharsOf d)] ++
          pickSnippets order d.content question 3 800 ++
          [endMarker (fnameOf d) (pageCharsOf d)]) ++ "\n\n".data
  else
    "\n\n".data ++ startMarker (fnameOf d) (pageCharsOf d) ++ "\n\n".data ++
      d.content ++ "\n\n".data ++ endMarker (fnameOf d) (pageCharsOf d) ++ "\n\n".data

def maxTotal : Nat := 18000

/-- The acceptance loop of `find_relevant_context`: results in rank order,
a non-empty block is accepted while the running total stays within
`max_total = 18000` or while nothing has been accepted yet; the first
non-empty block that does not fit stops the loop. -/
def acceptDocs (mk : StoreDoc → List Char) :
    List StoreDoc → Nat → Bool → List StoreDoc
  | [], _, _ => []
  | d :: ds, total, started =>
    if (mk d).isEmpty then acceptDocs mk ds total started
    else if total + (mk d).length ≤ maxTotal ∨ started = false then
      d :: acceptDocs mk ds (total + (mk d).length) true
    else []

/-- The `context_parts` list accumulated by `find_relevant_context`. -/
def contextParts (mode : Bool) (order : List (List Char)) (question : List Char)
    (docs : List StoreDoc) : List (List Char) :=
  (acceptDocs (blockOf mode order question) docs 0 false).map (blockOf mode order question)

/-- The Context string returned by `find_relevant_context` for the given
(relevance-ordered) store results; the empty joined context maps to the
sentinel string. -/
def findRelevantContext (mode : Bool) (order : List (List Char))
    (question : List Char) (docs : List StoreDoc) : List Char :=
  if ((contextParts mode order question docs).flatten).isEmpty then
    "No relevant policy documents found.".data
  else (contextParts mode order question docs).flatten

theorem acceptDocs_true_budget (mk : StoreDoc → List Char) :
    ∀ (ds : List StoreDoc) (total : Nat),
      acceptDocs mk ds total true = [] ∨
      total + ((acceptDocs mk ds total true).map mk).flatten.length ≤ maxTotal := by
  intro ds
  induction ds with
  | nil => intro total; left; rw [acceptDocs]
  | cons d ds ih =>
    intro total
    rw [acceptDocs]
    split
    · exact ih total
    · split
      · next hcond =>
        right
        have hfit : total + (mk d).length ≤ maxTotal := by
          rcases hcond with h | h
          · exact h
          · cases h
        rcases ih (total + (mk d).length) with h2 | h2
        · simp [h2]; omega
        · simp only [List.map_cons, List.flatten_cons, List.length_append]
          omega
      · left; rfl

/-- C5: the Context built by `find_relevant_context` either fits the global
18,000-character ceiling, or consists of exactly one (oversized) block. -/
theorem findRelevantContext_budget (mode : Bool) (order : List (List Char))
    (question : List Char) (docs : List StoreDoc) :
    (findRelevantContext mode order question docs).length ≤ maxTotal ∨
    ((contextParts mode order question docs).length = 1 ∧
     findRelevantContext mode order question docs =
       (contextParts mode order question docs).flatten) := by
  have hparts :
      (contextParts mode order question docs).flatten.length ≤ maxTotal ∨
      (contextParts mode order question docs).length = 1 := by
    unfold contextParts
    induction docs with
    | nil => left; rw [acceptDocs]; simp
    | cons d ds ih =>
      rw [acceptDocs]
      split
      · exact ih
      · split
        · rcases acceptDocs_true_budget (blockOf mode order question) ds
            (0 + (blockOf mode order question d).length) with h2 | h2
          · right
            simp only [h2, List.map_cons, List.map_nil, List.length_cons, List.length_nil]
          · left
            simp only [List.map_cons, List.flatten_cons, List.length_append]
            omega
        · next hcond => exact absurd (Or.inr rfl) hcond
  unfold findRelevantContext
  split
  · left
    have : ("No relevant policy documents found.".data).length ≤ maxTotal := by decide
    exact this
  · rcases hparts with h | h
    · left; exact h
    · right; exact ⟨h, rfl⟩

def c3Question : List Char := "alpha beta gamma delta?".data

def c3Content : List Char :=
  "alpha beta gamma".data ++ List.replicate 500 'x' ++ "beta gamma delta".data

def c3Doc : StoreDoc := ⟨some "f".data, some 1, c3Content⟩

def c3Order1 : List (List Char) := phraseSetElems c3Question

def c3Order2 : List (List Char) :=
  ["alpha beta gamma delta".data, "beta gamma delta".data, "alpha beta gamma".data]

set_option maxRecDepth 100000 in
/-- C3: the Context Assembler is not deterministic in the sense the spec
requires.  `_pick_snippets` iterates over a Python `set` of candidate
phrases and stops after `per_doc` hits, so the Context depends on the set
iteration order, which CPython varies across processes (string hash
randomization).  Below, `c3Order1` and `c3Order2` enumerate the same
candidate-phrase set (they are permutations of each other) yet produce
byte-different Context strings for identical store contents and relevance
ordering. -/
theorem findRelevantContext_order_dependent :
    c3Order1 = ["alpha beta gamma delta".data, "alpha beta gamma".data,
      "beta gamma delta".data] ∧
    c3Order1.Perm c3Order2 ∧
    findRelevantContext true c3Order1 c3Question [c3Doc] ≠
      findRelevantContext true c3Order2 c3Question [c3Doc] := by
  refine ⟨by decide, ?_, by decide⟩
  have h : c3Order1 = ["alpha beta gamma delta".data, "alpha beta gamma".data,
      "beta gamma delta".data] := by decide
  rw [h]
  exact List.Perm.cons _ (List.Perm.swap _ _ _)

/-- Case-insensitive prefix test (`re.IGNORECASE` literal matching). -/
def isPrefixCI (p s : List Char) : Bool := (lower p).isPrefixOf (lower s)

/-- Strip a case-insensitive literal prefix, returning the rest. -/
def stripCI (p s : List Char) : Option (List Char) :=
  if isPrefixCI p s then some (s.drop p.length) else none

/-- Python `re.sub(r"-\s*\n\s*", "", text)` of `extract_questions_from_pdf`:
at a `'-'` whose following whitespace run contains a `'\n'`, the greedy
trailing `\s*` makes the match consume the whole run; fuel (at least the
string length) keeps the recursion structural. -/
def sub1Aux : Nat → List Char → List Char
  | 0, s => s
  | _ + 1, [] => []
  | fuel + 1, c :: t =>
    if c = '-' then
      if (t.takeWhile isPySpace).contains '\n' then
        sub1Aux fuel (t.drop (t.takeWhile isPySpace).length)
      else c :: sub1Aux fuel t
    else c :: sub1Aux fuel t

def sub1 (s : List Char) : List Char := sub1Aux s.length s

def isLowerAlpha (c : Char) : Bool := 'a' ≤ c && c ≤ 'z'

/-- Python `re.sub(r"([a-z,;])\s*\n\s*([a-z])", r"\1 \2", text)`: a matched
pair of letters separated by a whitespace run containing `'\n'` is rejoined
with a single space; scanning resumes after the second letter (so an
immediately following break is left alone, as the `re` engine does). -/
def sub2Aux : Nat → List Char → List Char
  | 0, s => s
  | _ + 1, [] => []
  | fuel + 1, c :: t =>
    if isLowerAlpha c || c = ',' || c = ';' then
      if (t.takeWhile isPySpace).contains '\n' then
        match t.drop (t.takeWhile isPySpace).length with
        | d :: t2 =>
          if isLowerAlpha d then c :: ' ' :: d :: sub2Aux fuel t2
          else c :: sub2Aux fuel t
        | [] => c :: sub2Aux fuel t
      else c :: sub2Aux fuel t
    else c :: sub2Aux fuel t

def sub2 (s : List Char) : List Char := sub2Aux s.length s

/-- Python `text.split('\n')`. -/
def splitOnNl : List Char → List (List Char)
  | [] => [[]]
  | c :: t =>
    if c = '\n' then [] :: splitOnNl t
    else
      match splitOnNl t with
      | h :: r => (c :: h) :: r
      | [] => [[c]]

/-- Alternative `\(\s*reference:[^)]+\)` of the boilerplate pattern. -/
def matchRefAlt (s : List Char) : Option (List Char) :=
  match s with
  | '(' :: t =>
    match stripCI "reference:".data (t.dropWhile isPySpace) with
    | some t2 =>
      if (t2.takeWhile (fun c => c ≠ ')')).isEmpty then none
      else
        match t2.drop (t2.takeWhile (fun c => c ≠ ')')).length with
        | ')' :: t3 => some t3
        | _ => none
    | none => none
  | _ => none

/-- Alternative `yes\s*no\s*citation:`. -/
def matchYesNoCitationAlt (s : List Char) : Option (List Char) := do
  let t1 ← stripCI "yes".data s
  let t3 ← stripCI "no".data (t1.dropWhile isPySpace)
  stripCI "citation:".data (t3.dropWhile isPySpace)

/-- Alternative `yes\s*no:`. -/
def matchYesNoAlt (s : List Char) : Option (List Char) := do
  let t1 ← stripCI "yes".data s
  stripCI "no:".data (t1.dropWhile isPySpace)

/-- The alternation of the boilerplate `prefix_re`, tried in source order at
one position. -/
def matchBoiler (s : List Char) : Option (List Char) :=
  matchRefAlt s <|> matchYesNoCitationAlt s <|> matchYesNoAlt s <|>
    stripCI "citation:".data s

/-- Python `prefix_re.sub("", line).strip()`: the anchored pattern
`^\s*(...)\s*` is removed once at the start when it matches, then the line is
stripped. -/
def cleanLine (line : List Char) : List Char :=
  match matchBoiler (line.dropWhile isPySpace) with
  | some rest => pyStrip (rest.dropWhile isPySpace)
  | none => pyStrip line

def endsWithQm (l : List Char) : Bool := l.getLast? == some '?'

/-- Python `re.match(r"^\s*\d+\.", line)` as a Boolean. -/
def startsWithEnum (l : List Char) : Bool :=
  if ((l.dropWhile isPySpace).takeWhile Char.isDigit).isEmpty then false
  else
    match (l.dropWhile isPySpace).drop
        ((l.dropWhile isPySpace).takeWhile Char.isDigit).length with
    | '.' :: _ => true
    | _ => false

/-- The normalized question text: `" ".join(lines).strip()` followed by
whitespace collapsing and a final strip. -/
def qTextOf (acc : List (List Char)) : List Char :=
  pyStrip (collapseWs (pyStrip (joinSpace acc)))

/-- The accumulation loop of `extract_questions_from_pdf`: lines gather into
a candidate until one ends in `'?'`; the joined candidate is kept only when
it has more than 4 words; a line starting with a decimal enumerator resets
the accumulator; a trailing unterminated accumulation is dropped. -/
def segmentLoop : List (List Char) → List (List Char) → List (List Char)
  | [], _ => []
  | line :: rest, acc =>
    if endsWithQm line then
      if 4 < (pySplit (qTextOf (acc ++ [line]))).length then
        qTextOf (acc ++ [line]) :: segmentLoop rest []
      else segmentLoop rest []
    else if startsWithEnum line then segmentLoop rest [line]
    else segmentLoop rest (acc ++ [line])

def cleanedLines (fullText : List Char) : List (List Char) :=
  ((splitOnNl (sub2 (sub1 fullText))).map cleanLine).filter (fun l => ! l.isEmpty)

/-- The question segmentation of `extract_questions_from_pdf`, starting from
the concatenated extracted page text (`full_text`); an unreadable or empty
source yields no questions. -/
def extractQuestions (fullText : List Char) : List (List Char) :=
  if fullText.isEmpty then []
  else segmentLoop (cleanedLines fullText) []

theorem getLast?_dropWhile_of_not (p : Char → Bool) (c : Char) (hc : p c = false) :
    ∀ s : List Char, s.getLast? = some c → (s.dropWhile p).getLast? = some c := by
  intro s
  induction s with
  | nil => intro h; cases h
  | cons a t ih =>
    intro h
    rw [List.dropWhile_cons]
    cases hpa : p a with
    | true =>
      simp only [if_pos rfl]
      cases t with
      | nil =>
        simp only [List.getLast?_singleton, Option.some.injEq] at h
        subst h
        rw [hpa] at hc
        cases hc
      | cons b u =>
        rw [List.getLast?_cons_cons] at h
        exact ih h
    | false => simpa using h

theorem getLast?_pyStrip (c : Char) (hc : isPySpace c = false) (s : List Char)
    (h : s.getLast? = some c) : (pyStrip s).getLast? = some c := by
  have h1 := getLast?_dropWhile_of_not isPySpace c hc s h
  have h3 : ((s.dropWhile isPySpace).reverse).dropWhile isPySpace
      = (s.dropWhile isPySpace).reverse := by
    cases hX : (s.dropWhile isPySpace).reverse with
    | nil => rfl
    | cons a u =>
      have h2 : ((s.dropWhile isPySpace).reverse).head? = some c := by
        rw [List.head?_reverse]; exact h1
      rw [hX] at h2
      simp only [List.head?_cons, Option.some.injEq] at h2
      subst h2
      rw [List.dropWhile_cons, if_neg (by simp [hc])]
  unfold pyStrip
  rw [h3, List.reverse_reverse]
  exact h1

theorem getLast?_collapseWsAux (c : Char) (hc : isPySpace c = false) :
    ∀ (s : List Char) (b : Bool), s.getLast? = some c →
      (collapseWsAux b s).getLast? = some c := by
  intro s
  induction s with
  | nil => intro b h; cases h
  | cons a t ih =>
    intro b h
    cases t with
    | nil =>
      simp only [List.getLast?_singleton, Option.some.injEq] at h
      subst h
      simp [collapseWsAux, hc]
    | cons a2 t2 =>
      rw [List.getLast?_cons_cons] at h
      rw [collapseWsAux]
      split
      · split
        · exact ih true h
        · have hres := ih true h
          cases hXl : collapseWsAux true (a2 :: t2) with
          | nil => rw [hXl] at hres; cases hres
          | cons y u =>
            rw [hXl] at hres
            rw [List.getLast?_cons_cons]
            exact hres
      · have hres := ih false h
        cases hXl : collapseWsAux false (a2 :: t2) with
        | nil => rw [hXl] at hres; cases hres
        | cons y u =>
          rw [hXl] at hres
          rw [List.getLast?_cons_cons]
          exact hres

theorem getLast?_joinSpace (line : List Char) (c : Char) (h : line.getLast? = some c) :
    ∀ acc : List (List Char), (joinSpace (acc ++ [line])).getLast? = some c := by
  intro acc
  induction acc with
  | nil => simpa [joinSpace] using h
  | cons a as ih =>
    have hstep : joinSpace ((a :: as) ++ [line]) =
        a ++ ' ' :: joinSpace (as ++ [line]) := by
      rw [List.cons_append]
      cases hlist : as ++ [line] with
      | nil => exact absurd hlist (by simp)
      | cons b bs => rfl
    rw [hstep, List.getLast?_append_cons]
    cases hJ : joinSpace (as ++ [line]) with
    | nil => rw [hJ] at ih; cases ih
    | cons y u =>
      rw [hJ] at ih
      rw [List.getLast?_cons_cons]
      exact ih

theorem segmentLoop_mem (lines : List (List Char)) :
    ∀ acc q, q ∈ segmentLoop lines acc →
      q.getLast? = some '?' ∧ 4 < (pySplit q).length := by
  induction lines with
  | nil => intro acc q h; simp [segmentLoop] at h
  | cons line rest ih =>
    intro acc q h
    rw [segmentLoop] at h
    split at h
    · next hqm =>
      split at h
      · next hwords =>
        rcases List.mem_cons.mp h with rfl | h2
        · refine ⟨?_, hwords⟩
          have hline : line.getLast? = some '?' := by
            simpa [endsWithQm] using hqm
          unfold qTextOf collapseWs
          apply getLast?_pyStrip _ (by decide)
          apply getLast?_collapseWsAux _ (by decide)
          apply getLast?_pyStrip _ (by decide)
          exact getLast?_joinSpace line '?' hline acc
        · exact ih [] q h2
      · exact ih [] q h
    · split at h
      · exact ih [line] q h
      · exact ih (acc ++ [line]) q h

/-- C6: every Question string emitted by the segmenter of
`extract_questions_from_pdf` ends with `'?'` and has strictly more than 4
whitespace-separated words; a candidate whose joined, whitespace-collapsed
text has at most 4 words is discarded, and raw text whose joined candidate
does not end in `'?'` never yields a Question. -/
theorem extractQuestions_wellformed (text q : List Char)
    (h : q ∈ extractQuestions text) :
    q.getLast? = some '?' ∧ 4 < (pySplit q).length := by
  unfold extractQuestions at h
  split at h
  · cases h
  · exact segmentLoop_mem _ [] q h

/-- Closed instance discharging the hypothesis of
`extractQuestions_wellformed`. -/
theorem extractQuestions_wellformed_witness :
    "1. Does the policy require encryption at rest?".data ∈
      extractQuestions "1. Does the policy require encryption at rest?\nShort?\n".data ∧
    ("1. Does the policy require encryption at rest?".data.getLast? = some '?' ∧
     4 < (pySplit "1. Does the policy require encryption at rest?".data).length) :=
  ⟨by decide,
   extractQuestions_wellformed
     "1. Does the policy require encryption at rest?\nShort?\n".data
     "1. Does the policy require encryption at rest?".data (by decide)⟩

/-- One-position test for `STATUS:\s*Met` under `re.IGNORECASE`: the literal
`STATUS:`, then the whitespace run (the greedy `\s*` must end exactly at the
run's end, since `M` is not whitespace), then the literal `Met`. -/
def statusMetAt (s : List Char) : Bool :=
  isPrefixCI "status:".data s &&
    isPrefixCI "met".data ((s.drop 7).dropWhile isPySpace)

/-- Python `re.search(r'STATUS:\s*Met', text, re.IGNORECASE) is not None`. -/
def searchStatusMet : List Char → Bool
  | [] => false
  | s@(_ :: t) => statusMetAt s || searchStatusMet t

/-- Python `re.search(r'EVIDENCE:(.*)', text, re.IGNORECASE | re.DOTALL)`:
group 1 is everything after the leftmost case-insensitive `EVIDENCE:`. -/
def evidenceSection : List Char → Option (List Char)
  | [] => none
  | s@(_ :: t) =>
    if isPrefixCI "evidence:".data s then some (s.drop 9)
    else evidenceSection t

def isOpenQuote (c : Char) : Bool := c = '"' || c = '“'

def isCloseQuote (c : Char) : Bool := c = '"' || c = '”'

/-- The characters strictly before the first closing-quote character, when
one exists. -/
def untilCloseQuote : List Char → Option (List Char)
  | [] => none
  | c :: t =>
    if isCloseQuote c then some []
    else (untilCloseQuote t).map (c :: ·)

/-- Python `re.search(r'(["“])(.*?)(?:["”])', evidence_text, re.DOTALL)`,
group 2: at the leftmost opening-quote character that is followed by some
closing-quote character, the lazy group spans up to the first closing quote;
when no closing quote follows, the engine moves on to later opening
quotes. -/
def firstQuoteSpan : List Char → Option (List Char)
  | [] => none
  | c :: t =>
    if isOpenQuote c then
      match untilCloseQuote t with
      | some between => some between
      | none => firstQuoteSpan t
    else firstQuoteSpan t

/-- One-position parse of
`\(\s*From\s+Filename:\s*([^,]+?)\s*,\s*Page:\s*(\d+)\s*\)` under
`re.IGNORECASE`, returning (pre-comma region, digit run).  Quantifier
resolution: every `\s*` that precedes a literal starting with a
non-whitespace character must consume the entire whitespace run; the lazy
`([^,]+?)` together with the `\s*` before the comma spans exactly the
(non-empty) region up to the first comma, and since the program always takes
`group(1).strip()`, returning the whole region (stripped by the caller)
is equivalent; `\s+` after `From` must be non-empty; `\d+` is the non-empty
maximal digit run. -/
def citeAt (s : List Char) : Option (List Char × List Char) :=
  match s with
  | '(' :: t0 =>
    match stripCI "from".data (t0.dropWhile isPySpace) with
    | none => none
    | some t1 =>
      if (t1.takeWhile isPySpace).isEmpty then none
      else
        match stripCI "filename:".data (t1.dropWhile isPySpace) with
        | none => none
        | some t2 =>
          if (t2.takeWhile (fun c => c ≠ ',')).isEmpty then none
          else
            match t2.drop (t2.takeWhile (fun c => c ≠ ',')).length with
            | ',' :: t3 =>
              match stripCI "page:".data (t3.dropWhile isPySpace) with
              | none => none
              | some t4 =>
                if ((t4.dropWhile isPySpace).takeWhile Char.isDigit).isEmpty then none
                else
                  match ((t4.dropWhile isPySpace).drop
                      ((t4.dropWhile isPySpace).takeWhile Char.isDigit).length).dropWhile
                      isPySpace with
                  | ')' :: _ =>
                    some (t2.takeWhile (fun c => c ≠ ','),
                      (t4.dropWhile isPySpace).takeWhile Char.isDigit)
                  | _ => none
            | _ => none
  | _ => none

/-- Python `re.search` of the citation pattern: leftmost matching
position. -/
def citeSearch : List Char → Option (List Char × List Char)
  | [] => none
  | s@(_ :: t) =>
    match citeAt s with
    | some r => some r
    | none => citeSearch t

/-- Split at the first case-insensitive occurrence of `needle`, returning
the parts before and after the occurrence. -/
def splitFirstCI (needle : List Char) : List Char → Option (List Char × List Char)
  | [] => if isPrefixCI needle [] then some ([], []) else none
  | s@(c :: t) =>
    if isPrefixCI needle s then some ([], s.drop needle.length)
    else (splitFirstCI needle t).map (fun r => (c :: r.1, r.2))

/-- Consume one expected character (used for the comma after the greedy
`[^,]+`, which necessarily stops at the first comma). -/
def consumeChar (c : Char) : List Char → Option (List Char)
  | [] => none
  | x :: t => if x = c then some t else none

/-- One-position match of the Verifier's block pattern
`--- START \(Filename: ([^,]+), Page: (\d+)\) ---\n\n([\s\S]*?)--- END
\(Filename: \1, Page: \2\) ---` under `re.IGNORECASE`.  The greedy `[^,]+`
is the non-empty run up to the first comma, `\d+` the non-empty digit run,
and the lazy body ends at the first (case-insensitive, as the
back-references are) occurrence of the end marker rebuilt from the captured
groups.  Returns (filename, page, body, rest-after-match). -/
def matchBlockAt (s : List Char) :
    Option (List Char × List Char × List Char × List Char) :=
  (stripCI "--- START (Filename: ".data s).bind fun t1 =>
    if (t1.takeWhile (fun c => c ≠ ',')).isEmpty then none
    else
      (consumeChar ',' (t1.drop (t1.takeWhile (fun c => c ≠ ',')).length)).bind fun t2 =>
        (stripCI " Page: ".data t2).bind fun t3 =>
          if (t3.takeWhile Char.isDigit).isEmpty then none
          else
            (stripCI ") ---\n\n".data
                (t3.drop (t3.takeWhile Char.isDigit).length)).bind fun t4 =>
              (splitFirstCI
                  (endMarker (t1.takeWhile (fun c => c ≠ ','))
                    (t3.takeWhile Char.isDigit)) t4).map fun br =>
                (t1.takeWhile (fun c => c ≠ ','), t3.takeWhile Char.isDigit,
                  br.1, br.2)

/-- Python `block_re.finditer(context)`: scan left to right, at each failing
position advance one character, after a match continue right after it.  The
fuel argument (at least the string length suffices, see
`scanBlocksAux_fuel_irrelevant`) keeps the recursion structural. -/
def scanBlocksAux : Nat → List Char → List (List Char × List Char × List Char)
  | 0, _ => []
  | fuel + 1, s =>
    match matchBlockAt s with
    | some (f, p, b, rest) => (f, p, b) :: scanBlocksAux fuel rest
    | none =>
      match s with
      | [] => []
      | _ :: t => scanBlocksAux fuel t

def scanBlocks (s : List Char) : List (List Char × List Char × List Char) :=
  scanBlocksAux s.length s

/-- The normalization `re.sub(r"\s+", " ", s).lower()` applied to blocks and
quotes before the containment test. -/
def norm (s : List Char) : List Char := lower (collapseWs s)

/-- Python `needle in hay` for strings (substring containment). -/
def containsSub (needle hay : List Char) : Bool :=
  (firstInfixPos needle hay).isSome

/-- The citation-correction loop of `parse_gemini_response`: among the
scanned blocks whose normalized body contains the normalized quote, keep the
first block attaining the smallest match position.  (The code compares float
scores `1.0/(block_start+1)` with strict `>`; for the representable range
that order is exactly `pos < bpos`, and ties keep the earlier block.) -/
def bestBlockAux (nq : List Char) :
    List (List Char × List Char × List Char) →
    Option (List Char × List Char × Nat) → Option (List Char × List Char × Nat)
  | [], best => best
  | (f, p, b) :: rest, best =>
    if nq.isEmpty then bestBlockAux nq rest best
    else if containsSub nq (norm b) then
      match firstInfixPos nq (norm b) with
      | none => bestBlockAux nq rest best
      | some pos =>
        match best with
        | none => bestBlockAux nq rest (some (f, p, pos))
        | some (_, _, bpos) =>
          if pos < bpos then bestBlockAux nq rest (some (f, p, pos))
          else bestBlockAux nq rest best
    else bestBlockAux nq rest best

def bestBlock (blocks : List (List Char × List Char × List Char))
    (quote : List Char) : Option (List Char × List Char) :=
  (bestBlockAux (norm quote) blocks none).map (fun r => (r.1, r.2.1))

/-- Python truthiness of the optional filename/page strings (`None` and the
empty string are falsy). -/
def truthy : Option (List Char) → Bool
  | some (_ :: _) => true
  | _ => false

def mkEvidence (f p q : List Char) : List Char :=
  "(From Filename: ".data ++ f ++ ", Page: ".data ++ p ++ ") \"".data ++ q ++ "\"".data

def apos : Char := Char.ofNat 39

def msgNoEvidenceSection : List Char :=
  "STATUS was ".data ++ [apos] ++ "Met".data ++ [apos] ++
    " but no EVIDENCE: section was found.".data

def msgEmptyEvidence : List Char :=
  "Evidence section was found but was empty.".data

/-- `quote_text`: the first quoted span of the evidence text, stripped;
Python leaves `""` when there is no quote match. -/
def quoteTextOf (et : List Char) : List Char :=
  match firstQuoteSpan et with
  | some q => pyStrip q
  | none => []

/-- `(found_fname, found_page)` from the citation search (both `None` when
the pattern does not match; `group(1).strip()` as discussed at `citeAt`). -/
def foundCiteOf (et : List Char) : Option (List Char) × Option (List Char) :=
  match citeSearch et with
  | some (region, digits) => (some (pyStrip region), some digits)
  | none => (none, none)

/-- `(actual_fname, actual_page)`: the model's claimed citation, overridden
by the best-scoring context block containing the quote when the quote and
the context are non-empty. -/
def actualCite (qt context : List Char)
    (found : Option (List Char) × Option (List Char)) :
    Option (List Char) × Option (List Char) :=
  if qt.isEmpty || context.isEmpty then found
  else
    match bestBlock (scanBlocks context) qt with
    | some (f, p) => (some f, some p)
    | none => found

/-- The final evidence string of the `Met` branch with a non-empty evidence
text. -/
def evidenceOf (et qt context : List Char) : List Char :=
  if ! qt.isEmpty && truthy (actualCite qt context (foundCiteOf et)).1 &&
      truthy (actualCite qt context (foundCiteOf et)).2 then
    mkEvidence ((actualCite qt context (foundCiteOf et)).1.getD [])
      ((actualCite qt context (foundCiteOf et)).2.getD []) qt
  else if ! qt.isEmpty && truthy (foundCiteOf et).1 && truthy (foundCiteOf et).2 then
    mkEvidence ((foundCiteOf et).1.getD []) ((foundCiteOf et).2.getD []) qt
  else et

/-- The program's `parse_gemini_response(text, context)` as the
(status, evidence) pair.  The enclosing `try/except` is not modelled:
every operation of the embedded body is total, so the `"Error"` branch is
unreachable here. -/
def parseGeminiResponse (text context : List Char) : List Char × List Char :=
  if searchStatusMet text then
    match evidenceSection text with
    | none => ("Met".data, msgNoEvidenceSection)
    | some ev =>
      if (pyStrip ev).isEmpty then ("Met".data, msgEmptyEvidence)
      else ("Met".data, evidenceOf (pyStrip ev) (quoteTextOf (pyStrip ev)) context)
  else ("Not Met".data, "N/A".data)

/-- C8: when the status search finds no `STATUS:`-whitespace-`Met` (the
code's case-insensitive `STATUS:\s*Met` pattern), the verifier returns
status `Not Met` with evidence exactly `N/A`, independent of any other
content of the response or of the context. -/
theorem parse_not_met (text context : List Char)
    (h : searchStatusMet text = false) :
    parseGeminiResponse text context = ("Not Met".data, "N/A".data) := by
  unfold parseGeminiResponse
  rw [h]
  simp

/-- Closed instance discharging the hypothesis of `parse_not_met`, on a
response that carries `STATUS: Not Met` together with evidence text. -/
theorem parse_not_met_witness :
    searchStatusMet "STATUS: Not Met\nEVIDENCE: (From Filename: a.pdf, Page: 3) \"quoted\"".data
      = false ∧
    parseGeminiResponse
      "STATUS: Not Met\nEVIDENCE: (From Filename: a.pdf, Page: 3) \"quoted\"".data
      "some context".data = ("Not Met".data, "N/A".data) :=
  ⟨by decide,
   parse_not_met
     "STATUS: Not Met\nEVIDENCE: (From Filename: a.pdf, Page: 3) \"quoted\"".data
     "some context".data (by decide)⟩

theorem takeWhile_append_of_all (p : Char → Bool) (l r : List Char)
    (h : ∀ c ∈ l, p c = true) :
    (l ++ r).takeWhile p = l ++ r.takeWhile p := by
  induction l with
  | nil => simp
  | cons c t ih =>
    rw [List.cons_append, List.takeWhile_cons, if_pos (h c (by simp))]
    rw [List.cons_append, ih (fun c hc => h c (by simp [hc]))]

theorem dropWhile_append_of_all (p : Char → Bool) (l r : List Char)
    (h : ∀ c ∈ l, p c = true) :
    (l ++ r).dropWhile p = r.dropWhile p := by
  induction l with
  | nil => simp
  | cons c t ih =>
    rw [List.cons_append, List.dropWhile_cons, if_pos (h c (by simp))]
    exact ih (fun c hc => h c (by simp [hc]))

theorem matchBlockAt_some {s : List Char} {f p b rest : List Char}
    (h : matchBlockAt s = some (f, p, b, rest)) :
    f ≠ [] ∧ p ≠ [] ∧ p.all Char.isDigit = true := by
  unfold matchBlockAt at h
  rcases h1 : stripCI "--- START (Filename: ".data s with _ | t1
  · rw [h1] at h; simp at h
  rw [h1] at h
  simp only [Option.some_bind] at h
  split at h
  · cases h
  next hne =>
    rcases h2 : consumeChar ','
        (t1.drop (t1.takeWhile (fun c => c ≠ ',')).length) with _ | t2
    · rw [h2] at h; simp at h
    rw [h2] at h
    simp only [Option.some_bind] at h
    rcases h3 : stripCI " Page: ".data t2 with _ | t3
    · rw [h3] at h; simp at h
    rw [h3] at h
    simp only [Option.some_bind] at h
    split at h
    · cases h
    next hne2 =>
      rcases h4 : stripCI ") ---\n\n".data
          (t3.drop (t3.takeWhile Char.isDigit).length) with _ | t4
      · rw [h4] at h; simp at h
      rw [h4] at h
      simp only [Option.some_bind] at h
      rcases h5 : splitFirstCI (endMarker (t1.takeWhile (fun c => c ≠ ','))
          (t3.takeWhile Char.isDigit)) t4 with _ | br
      · rw [h5] at h; simp at h
      rw [h5] at h
      simp only [Option.map_some'] at h
      simp only [Option.some.injEq, Prod.mk.injEq] at h
      obtain ⟨hf1, hp1, _, _⟩ := h
      refine ⟨?_, ?_, ?_⟩
      · intro hfe
        rw [hfe] at hf1
        rw [hf1] at hne
        simp at hne
      · intro hpe
        rw [hpe] at hp1
        rw [hp1] at hne2
        simp at hne2
      · rw [← hp1]
        simp only [List.all_eq_true]
        intro c hc
        exact List.mem_takeWhile_imp hc

theorem scanBlocksAux_wf :
    ∀ (fuel : Nat) (s : List Char) (f p b : List Char),
      (f, p, b) ∈ scanBlocksAux fuel s →
      f ≠ [] ∧ p ≠ [] ∧ p.all Char.isDigit = true := by
  intro fuel
  induction fuel with
  | zero => intro s f p b h; simp [scanBlocksAux] at h
  | succ n ih =>
    intro s f p b h
    simp only [scanBlocksAux] at h
    split at h
    · next f0 p0 b0 rest0 hm =>
      rcases List.mem_cons.mp h with heq | h2
      · simp only [Prod.mk.injEq] at heq
        obtain ⟨h1, h2, h3⟩ := heq
        subst h1
        subst h2
        exact matchBlockAt_some hm
      · exact ih rest0 f p b h2
    · split at h
      · simp at h
      · exact ih _ f p b h

/-- Pages reported by the Verifier's block scanner are always non-empty
digit runs (so a block whose marker reads `Page: N/A` can never be
scanned). -/
theorem scanBlocks_wf (s f p b : List Char) (h : (f, p, b) ∈ scanBlocks s) :
    f ≠ [] ∧ p ≠ [] ∧ p.all Char.isDigit = true :=
  scanBlocksAux_wf s.length s f p b h

theorem bestBlockAux_sound (nq : List Char) :
    ∀ (blocks : List (List Char × List Char × List Char))
      (acc : Option (List Char × List Char × Nat)) (f p : List Char) (pos : Nat),
      bestBlockAux nq blocks acc = some (f, p, pos) →
      acc = some (f, p, pos) ∨
        ∃ b, (f, p, b) ∈ blocks ∧ firstInfixPos nq (norm b) = some pos := by
  intro blocks
  induction blocks with
  | nil => intro acc f p pos h; rw [bestBlockAux] at h; exact Or.inl h
  | cons hd rest ih =>
    intro acc f p pos h
    obtain ⟨f0, p0, b0⟩ := hd
    rw [bestBlockAux] at h
    split at h
    · rcases ih acc f p pos h with h1 | ⟨b, hb1, hb2⟩
      · exact Or.inl h1
      · exact Or.inr ⟨b, by simp [hb1], hb2⟩
    · split at h
      · split at h
        · rcases ih acc f p pos h with h1 | ⟨b, hb1, hb2⟩
          · exact Or.inl h1
          · exact Or.inr ⟨b, by simp [hb1], hb2⟩
        · next pos0 hfip =>
          split at h
          · rcases ih _ f p pos h with h1 | ⟨b, hb1, hb2⟩
            · simp only [Option.some.injEq, Prod.mk.injEq] at h1
              exact Or.inr ⟨b0, by simp [h1.1, h1.2.1], h1.2.2 ▸ hfip⟩
            · exact Or.inr ⟨b, by simp [hb1], hb2⟩
          · split at h
            · rcases ih _ f p pos h with h1 | ⟨b, hb1, hb2⟩
              · simp only [Option.some.injEq, Prod.mk.injEq] at h1
                exact Or.inr ⟨b0, by simp [h1.1, h1.2.1], h1.2.2 ▸ hfip⟩
              · exact Or.inr ⟨b, by simp [hb1], hb2⟩
            · rcases ih _ f p pos h with h1 | ⟨b, hb1, hb2⟩
              · exact Or.inl h1
              · exact Or.inr ⟨b, by simp [hb1], hb2⟩
      · rcases ih acc f p pos h with h1 | ⟨b, hb1, hb2⟩
        · exact Or.inl h1
        · exact Or.inr ⟨b, by simp [hb1], hb2⟩

theorem bestBlockAux_isSome (nq : List Char) (hnq : nq ≠ []) :
    ∀ (blocks : List (List Char × List Char × List Char))
      (acc : Option (List Char × List Char × Nat)),
      ((∃ f p b, (f, p, b) ∈ blocks ∧ containsSub nq (norm b) = true) ∨ acc.isSome) →
      (bestBlockAux nq blocks acc).isSome := by
  intro blocks
  induction blocks with
  | nil =>
    intro acc h
    rw [bestBlockAux]
    rcases h with ⟨f, p, b, hb, _⟩ | h
    · simp at hb
    · exact h
  | cons hd rest ih =>
    intro acc h
    obtain ⟨f0, p0, b0⟩ := hd
    rw [bestBlockAux]
    split
    · next hemp => exact absurd (by simpa using hemp) hnq
    · split
      · next hcont =>
        split
        · next hfip =>
          rcases h with ⟨f, p, b, hb, hc⟩ | h
          · rcases List.mem_cons.mp hb with heq | h2
            · simp only [Prod.mk.injEq] at heq
              rw [heq.2.2] at hc
              unfold containsSub at hc
              rw [hfip] at hc
              cases hc
            · exact ih acc (Or.inl ⟨f, p, b, h2, hc⟩)
          · exact ih acc (Or.inr h)
        · split
          · exact ih _ (Or.inr rfl)
          · split
            · exact ih _ (Or.inr rfl)
            · exact ih _ (Or.inr (by simp))
      · next hcont =>
        rcases h with ⟨f, p, b, hb, hc⟩ | h
        · rcases List.mem_cons.mp hb with heq | h2
          · simp only [Prod.mk.injEq] at heq
            rw [heq.2.2] at hc
            exact absurd hc (by simpa using hcont)
          · exact ih acc (Or.inl ⟨f, p, b, h2, hc⟩)
        · exact ih acc (Or.inr h)

theorem norm_ne_nil (q : List Char) (h : q ≠ []) : norm q ≠ [] := by
  cases q with
  | nil => exact absurd rfl h
  | cons c t =>
    unfold norm collapseWs lower
    rw [collapseWsAux]
    split
    · simp
    · simp

theorem truthy_some_of_ne (f : List Char) (h : f ≠ []) : truthy (some f) = true := by
  cases f with
  | nil => exact absurd rfl h
  | cons c t => rfl

def c1Context : List Char :=
  "--- START (Filename: F.pdf, Page: 7) ---\n\nalpha hello world beta\n\n--- END (Filename: F.pdf, Page: 7) ---\n\n".data

def c1Response : List Char :=
  "STATUS: Met\nEVIDENCE: (From Filename: G.pdf, Page: 1) \"bogus quote\"".data

set_option maxRecDepth 100000 in
/-- C1 is false as stated: on a response whose quoted evidence does not occur
anywhere in the Context (normalized), the verifier still returns a `Met`
verdict whose evidence is the formatted citation-and-quote string built from
the model's own claimed citation — the quote is not substring-verifiable
against the Context. -/
theorem parse_met_unverifiable_quote :
    parseGeminiResponse c1Response c1Context =
      ("Met".data, mkEvidence "G.pdf".data "1".data "bogus quote".data) ∧
    containsSub (norm "bogus quote".data) (norm c1Context) = false :=
  ⟨by decide, by decide⟩

/-- C1 (amended): whenever the block scan finds the normalized quote in at
least one scanned Context block, the `Met` evidence returned by
`parse_gemini_response` is the formatted citation of a block that does
contain the quote; the substring-verifiability invariant holds exactly in
that case, and when the quote occurs in no scanned block the code falls back
to the model's unverified claimed citation (see
`parse_met_unverifiable_quote`). -/
theorem parse_met_cites_containing_block (text context ev : List Char)
    (hstat : searchStatusMet text = true)
    (hev : evidenceSection text = some ev)
    (hne : (pyStrip ev).isEmpty = false)
    (hqt : quoteTextOf (pyStrip ev) ≠ [])
    (hctx : context ≠ [])
    (hex : ∃ f p b, (f, p, b) ∈ scanBlocks context ∧
      containsSub (norm (quoteTextOf (pyStrip ev))) (norm b) = true) :
    ∃ f p b, (f, p, b) ∈ scanBlocks context ∧
      containsSub (norm (quoteTextOf (pyStrip ev))) (norm b) = true ∧
      parseGeminiResponse text context =
        ("Met".data, mkEvidence f p (quoteTextOf (pyStrip ev))) := by
  have hnq : norm (quoteTextOf (pyStrip ev)) ≠ [] := norm_ne_nil _ hqt
  have hsome := bestBlockAux_isSome _ hnq (scanBlocks context) none (Or.inl hex)
  rcases Option.isSome_iff_exists.mp hsome with ⟨⟨f, p, pos⟩, hb⟩
  rcases bestBlockAux_sound _ (scanBlocks context) none f p pos hb with h1 | ⟨b, hmem, hfip⟩
  · cases h1
  · obtain ⟨hf, hp, _⟩ := scanBlocks_wf context f p b hmem
    have hbest : bestBlock (scanBlocks context) (quoteTextOf (pyStrip ev)) = some (f, p) := by
      unfold bestBlock
      rw [hb]
      rfl
    have hact : actualCite (quoteTextOf (pyStrip ev)) context
        (foundCiteOf (pyStrip ev)) = (some f, some p) := by
      unfold actualCite
      rw [if_neg, hbest]
      simp [hqt, hctx]
    refine ⟨f, p, b, hmem, ?_, ?_⟩
    · unfold containsSub
      rw [hfip]
      rfl
    · unfold parseGeminiResponse
      rw [hstat]
      simp only [if_true]
      rw [hev]
      simp only [hne]
      unfold evidenceOf
      rw [hact]
      simp only [truthy_some_of_ne f hf, truthy_some_of_ne p hp, Option.getD_some]
      simp [hqt]

/-- Closed instance discharging the hypotheses of
`parse_met_cites_containing_block`. -/
theorem parse_met_cites_containing_block_witness :
    ∃ f p b,
      (f, p, b) ∈ scanBlocks c1Context ∧
      containsSub
        (norm (quoteTextOf (pyStrip " (From Filename: G.pdf, Page: 1) \"hello world\"".data)))
        (norm b) = true ∧
      parseGeminiResponse
        "STATUS: Met\nEVIDENCE: (From Filename: G.pdf, Page: 1) \"hello world\"".data
        c1Context =
        ("Met".data,
          mkEvidence f p
            (quoteTextOf (pyStrip " (From Filename: G.pdf, Page: 1) \"hello world\"".data))) :=
  parse_met_cites_containing_block
    "STATUS: Met\nEVIDENCE: (From Filename: G.pdf, Page: 1) \"hello world\"".data
    c1Context
    " (From Filename: G.pdf, Page: 1) \"hello world\"".data
    (by decide) (by decide) (by decide) (by decide) (by decide)
    ⟨"F.pdf".data, "7".data, "alpha hello world beta\n\n".data, by decide, by decide⟩

/-- The model-response shape that C2 quantifies over:
`STATUS: Met`, newline, `EVIDENCE: (From Filename: G, Page: 1) "Q"`. -/
def metResponse (G Q : List Char) : List Char :=
  "STATUS: Met\nEVIDENCE: (From Filename: ".data ++
    (G ++ (", Page: 1) ".data ++ ('"' :: (Q ++ ['"']))))

/-- The evidence text of `metResponse` after the leading space is
stripped. -/
def metEvidenceText (G Q : List Char) : List Char :=
  "(From Filename: ".data ++ (G ++ (", Page: 1) ".data ++ ('"' :: (Q ++ ['"']))))

theorem searchStatusMet_metResponse (G Q : List Char) :
    searchStatusMet (metResponse G Q) = true := rfl

theorem evidenceSection_metResponse (G Q : List Char) :
    evidenceSection (metResponse G Q) = some (' ' :: metEvidenceText G Q) := rfl

theorem dropWhile_eq_self_of_head (p : Char → Bool) (s : List Char)
    (h : ∀ d, s.head? = some d → p d = false) : s.dropWhile p = s := by
  cases s with
  | nil => rfl
  | cons c t => rw [List.dropWhile_cons, if_neg (by simp [h c rfl])]

theorem pyStrip_eq_self (s : List Char)
    (hh : ∀ d, s.head? = some d → isPySpace d = false)
    (hl : ∀ d, s.getLast? = some d → isPySpace d = false) : pyStrip s = s := by
  unfold pyStrip
  rw [dropWhile_eq_self_of_head _ s hh]
  rw [dropWhile_eq_self_of_head _ s.reverse
    (fun d hd => hl d (by rwa [List.head?_reverse] at hd))]
  exact List.reverse_reverse s

theorem pyStrip_cons_space (c : Char) (s : List Char) (hc : isPySpace c = true) :
    pyStrip (c :: s) = pyStrip s := by
  unfold pyStrip
  rw [List.dropWhile_cons, if_pos hc]

theorem metEvidenceText_concat (G Q : List Char) :
    metEvidenceText G Q =
      ("(From Filename: ".data ++ G ++ ", Page: 1) ".data ++ ('"' :: Q)) ++ ['"'] := by
  unfold metEvidenceText
  simp [List.append_assoc]

theorem pyStrip_metEvidenceText (G Q : List Char) :
    pyStrip (' ' :: metEvidenceText G Q) = metEvidenceText G Q := by
  rw [pyStrip_cons_space _ _ (by decide)]
  refine pyStrip_eq_self _ ?_ ?_
  · intro d hd
    rw [show (metEvidenceText G Q).head? = some '(' from rfl] at hd
    cases hd
    decide
  · intro d hd
    rw [metEvidenceText_concat, List.getLast?_concat] at hd
    cases hd
    decide

theorem firstQuoteSpan_append (pre s : List Char)
    (h : ∀ c ∈ pre, isOpenQuote c = false) :
    firstQuoteSpan (pre ++ s) = firstQuoteSpan s := by
  induction pre with
  | nil => rfl
  | cons c t ih =>
    rw [List.cons_append, firstQuoteSpan, if_neg (by simp [h c (by simp)])]
    exact ih (fun c hc => h c (by simp [hc]))

theorem untilCloseQuote_append (Q : List Char) (c : Char) (r : List Char)
    (hQ : ∀ d ∈ Q, isCloseQuote d = false) (hc : isCloseQuote c = true) :
    untilCloseQuote (Q ++ (c :: r)) = some Q := by
  induction Q with
  | nil => rw [List.nil_append, untilCloseQuote, if_pos hc]
  | cons d t ih =>
    rw [List.cons_append, untilCloseQuote, if_neg (by simp [hQ d (by simp)])]
    rw [ih (fun d hd => hQ d (by simp [hd]))]
    rfl

theorem quoteTextOf_metEvidenceText (G Q : List Char)
    (hGq : ∀ c ∈ G, isOpenQuote c = false)
    (hQc : ∀ d ∈ Q, isCloseQuote d = false)
    (hQs : pyStrip Q = Q) :
    quoteTextOf (metEvidenceText G Q) = Q := by
  have hshape : metEvidenceText G Q =
      ("(From Filename: ".data ++ G ++ ", Page: 1) ".data) ++ ('"' :: (Q ++ ['"'])) := by
    unfold metEvidenceText
    simp [List.append_assoc]
  unfold quoteTextOf
  rw [hshape, firstQuoteSpan_append _ _ ?hpre]
  case hpre =>
    intro c hc
    simp only [List.mem_append] at hc
    rcases hc with (hc | hc) | hc
    · exact (by decide : ∀ c ∈ "(From Filename: ".data, isOpenQuote c = false) c hc
    · exact hGq c hc
    · exact (by decide : ∀ c ∈ ", Page: 1) ".data, isOpenQuote c = false) c hc
  rw [firstQuoteSpan, if_pos (by decide)]
  rw [untilCloseQuote_append Q '"' [] hQc (by decide)]
  exact hQs

/-- The block triple `x` respects the minimality of the distinguished block
`(F, P, B)` at match position `k`: any match position it attains is either
strictly worse or it is the distinguished block at exactly `k`. -/
def MinAt (nq F P B : List Char) (k : Nat)
    (x : List Char × List Char × List Char) : Prop :=
  ∀ k', firstInfixPos nq (norm x.2.2) = some k' →
    k < k' ∨ (x = (F, P, B) ∧ k' = k)

theorem bestBlockAux_post (nq F P B : List Char) (k : Nat) :
    ∀ blocks, (∀ x ∈ blocks, MinAt nq F P B k x) →
      bestBlockAux nq blocks (some (F, P, k)) = some (F, P, k) := by
  intro blocks
  induction blocks with
  | nil => intro _; rfl
  | cons hd rest ih =>
    intro hmin
    obtain ⟨f0, p0, b0⟩ := hd
    rw [bestBlockAux]
    split
    · exact ih (fun x hx => hmin x (by simp [hx]))
    · split
      · split
        · exact ih (fun x hx => hmin x (by simp [hx]))
        · next pos hfip =>
          have := hmin (f0, p0, b0) (by simp) pos hfip
          have hnotlt : ¬ pos < k := by
            rcases this with h1 | ⟨_, h2⟩
            · omega
            · omega
          dsimp only
          rw [if_neg hnotlt]
          exact ih (fun x hx => hmin x (by simp [hx]))
      · exact ih (fun x hx => hmin x (by simp [hx]))

theorem bestBlockAux_pre (nq F P B : List Char) (k : Nat)
    (hFk : firstInfixPos nq (norm B) = some k) (hnq : nq ≠ []) :
    ∀ blocks acc, (F, P, B) ∈ blocks →
      (∀ x ∈ blocks, MinAt nq F P B k x) →
      (acc = none ∨ ∃ f' p' k', acc = some (f', p', k') ∧ k < k') →
      bestBlockAux nq blocks acc = some (F, P, k) := by
  intro blocks
  induction blocks with
  | nil => intro acc hmem _ _; simp at hmem
  | cons hd rest ih =>
    intro acc hmem hmin hacc
    obtain ⟨f0, p0, b0⟩ := hd
    rw [bestBlockAux]
    split
    · next hemp => exact absurd (by simpa using hemp) hnq
    · split
      · next hcont =>
        split
        · next hfip =>
          rcases List.mem_cons.mp hmem with heq | hmem2
          · simp only [Prod.mk.injEq] at heq
            rw [← heq.2.2, hFk] at hfip
            cases hfip
          · exact ih acc hmem2 (fun x hx => hmin x (by simp [hx])) hacc
        · next pos hfip =>
          have hcase := hmin (f0, p0, b0) (by simp) pos hfip
          rcases hcase with hklt | ⟨heq, hpk⟩
          · have hmemr : (F, P, B) ∈ rest := by
              rcases List.mem_cons.mp hmem with heq | hmem2
              · simp only [Prod.mk.injEq] at heq
                rw [← heq.2.2, hFk] at hfip
                cases hfip
                omega
              · exact hmem2
            rcases hacc with rfl | ⟨f', p', k', rfl, hkk⟩
            · dsimp only
              exact ih _ hmemr (fun x hx => hmin x (by simp [hx]))
                (Or.inr ⟨f0, p0, pos, rfl, hklt⟩)
            · dsimp only
              split
              · exact ih _ hmemr (fun x hx => hmin x (by simp [hx]))
                  (Or.inr ⟨f0, p0, pos, rfl, hklt⟩)
              · exact ih _ hmemr (fun x hx => hmin x (by simp [hx]))
                  (Or.inr ⟨f', p', k', rfl, hkk⟩)
          · simp only [Prod.mk.injEq] at heq
            obtain ⟨he1, he2, he3⟩ := heq
            rcases hacc with rfl | ⟨f', p', k', rfl, hkk⟩
            · dsimp only
              rw [he1, he2, hpk]
              exact bestBlockAux_post nq F P B k rest
                (fun x hx => hmin x (by simp [hx]))
            · dsimp only
              rw [if_pos (by omega)]
              rw [he1, he2, hpk]
              exact bestBlockAux_post nq F P B k rest
                (fun x hx => hmin x (by simp [hx]))
      · next hcont =>
        rcases List.mem_cons.mp hmem with heq | hmem2
        · simp only [Prod.mk.injEq] at heq
          rw [← heq.2.2] at hcont
          have : containsSub nq (norm B) = true := by
            unfold containsSub
            rw [hFk]
            rfl
          exact absurd this (by simpa using hcont)
        · exact ih acc hmem2 (fun x hx => hmin x (by simp [hx])) hacc

/-- C2: for a model response of the exact form
`STATUS: Met`, newline, `EVIDENCE: (From Filename: G, Page: 1) "Q"` (the
filename free of quote characters, the quote free of closing-quote
characters and already stripped), if the Context contains a scanned block
`(F, 7)` in whose normalized body the normalized quote occurs at position
`k`, and every scanned block attaining a match position does so strictly
later (the `(F, 7)` block being the unique one attaining the earliest
position `k`), then the Verifier returns `Met` with evidence citing
`(From Filename: F, Page: 7)` — overriding the model's claimed `(G, 1)`. -/
theorem parse_met_overrides_citation
    (G Q F B context : List Char) (k : Nat)
    (hGq : ∀ c ∈ G, isOpenQuote c = false)
    (hQc : ∀ d ∈ Q, isCloseQuote d = false)
    (hQs : pyStrip Q = Q) (hQne : Q ≠ [])
    (hctx : context ≠ [])
    (hmem : (F, "7".data, B) ∈ scanBlocks context)
    (hFk : firstInfixPos (norm Q) (norm B) = some k)
    (hmin : ∀ x ∈ scanBlocks context, MinAt (norm Q) F "7".data B k x) :
    parseGeminiResponse (metResponse G Q) context =
      ("Met".data, mkEvidence F "7".data Q) := by
  have hnq : norm Q ≠ [] := norm_ne_nil Q hQne
  have hbestaux := bestBlockAux_pre (norm Q) F "7".data B k hFk hnq
    (scanBlocks context) none hmem hmin (Or.inl rfl)
  have hqt : quoteTextOf (metEvidenceText G Q) = Q :=
    quoteTextOf_metEvidenceText G Q hGq hQc hQs
  have hF : F ≠ [] := (scanBlocks_wf context F "7".data B hmem).1
  have hbest : bestBlock (scanBlocks context) Q = some (F, "7".data) := by
    unfold bestBlock
    rw [hbestaux]
    rfl
  have hact : actualCite Q context (foundCiteOf (metEvidenceText G Q)) =
      (some F, some "7".data) := by
    unfold actualCite
    rw [if_neg (by simp [hQne, hctx]), hbest]
  unfold parseGeminiResponse
  rw [searchStatusMet_metResponse]
  simp only [if_true]
  rw [evidenceSection_metResponse]
  simp only [pyStrip_metEvidenceText]
  have hie : (metEvidenceText G Q).isEmpty = false := rfl
  simp only [hie, Bool.false_eq_true, if_false]
  rw [hqt]
  unfold evidenceOf
  rw [hact]
  simp only [truthy_some_of_ne F hF, truthy_some_of_ne "7".data (by decide),
    Option.getD_some]
  have hq' : Q.isEmpty = false := by
    cases Q with
    | nil => exact absurd rfl hQne
    | cons c t => rfl
  simp [hq']

/-- Closed instance discharging the hypotheses of
`parse_met_overrides_citation`: the model cites `(G.pdf, 1)`, the quote is
found in the `(F.pdf, 7)` block, and the citation is corrected. -/
theorem parse_met_overrides_citation_witness :
    parseGeminiResponse (metResponse "G.pdf".data "hello world".data) c1Context =
      ("Met".data, mkEvidence "F.pdf".data "7".data "hello world".data) := by
  refine parse_met_overrides_citation "G.pdf".data "hello world".data "F.pdf".data
    "alpha hello world beta\n\n".data c1Context 6
    (by decide) (by decide) (by decide) (by decide) (by decide) (by decide) (by decide)
    ?_
  intro x hx k' hk'
  have hscan : scanBlocks c1Context =
      [("F.pdf".data, "7".data, "alpha hello world beta\n\n".data)] := by decide
  rw [hscan] at hx
  have hx' : x = ("F.pdf".data, "7".data, "alpha hello world beta\n\n".data) := by
    simpa using hx
  subst hx'
  right
  refine ⟨rfl, ?_⟩
  have hc : firstInfixPos (norm "hello world".data)
      (norm "alpha hello world beta\n\n".data) = some 6 := by decide
  rw [hc] at hk'
  injection hk' with h
  exact h.symm

theorem firstInfixPos_isSome_of_prefix (n s : List Char)
    (h : n.isPrefixOf s = true) : (firstInfixPos n s).isSome = true := by
  cases s with
  | nil => rw [firstInfixPos, if_pos h]; rfl
  | cons c t => rw [firstInfixPos, if_pos h]; rfl

theorem containsSub_of_append (n u v s : List Char) (h : s = u ++ (n ++ v)) :
    containsSub n s = true := by
  subst h
  unfold containsSub
  induction u with
  | nil =>
    rw [List.nil_append]
    exact firstInfixPos_isSome_of_prefix n (n ++ v)
      (List.isPrefixOf_iff_prefix.mpr (List.prefix_append n v))
  | cons c t ih =>
    rw [List.cons_append, firstInfixPos]
    split
    · rfl
    · cases hfi : firstInfixPos n (t ++ (n ++ v)) with
      | none => rw [hfi] at ih; cases ih
      | some k => rfl

/-- C10: a stored page whose `page_number` is missing is rendered with
`Page: N/A` inside its block markers; the Verifier's scanner only ever
yields non-empty all-digit pages, so such a block is never scanned and can
never be selected as the authoritative citation; and a response whose quote
is found in no scanned block keeps the model's claimed citation (or the raw
evidence text). -/
theorem na_page_blocks_unscannable
    (mode : Bool) (order : List (List Char)) (question : List Char)
    (d : StoreDoc) (hdp : d.pageNumber = none)
    (hblk : blockOf mode order question d ≠ [])
    (text context ev : List Char)
    (hstat : searchStatusMet text = true)
    (hev : evidenceSection text = some ev)
    (hne : (pyStrip ev).isEmpty = false)
    (hnofind : bestBlock (scanBlocks context) (quoteTextOf (pyStrip ev)) = none) :
    containsSub "Page: N/A".data (blockOf mode order question d) = true ∧
    (∀ f p b, (f, p, b) ∈ scanBlocks context →
      p ≠ [] ∧ p.all Char.isDigit = true ∧ p ≠ "N/A".data) ∧
    parseGeminiResponse text context =
      ("Met".data, evidenceOf (pyStrip ev) (quoteTextOf (pyStrip ev)) context) ∧
    (evidenceOf (pyStrip ev) (quoteTextOf (pyStrip ev)) context = pyStrip ev ∨
     ∃ rf rp, foundCiteOf (pyStrip ev) = (some rf, some rp) ∧
       evidenceOf (pyStrip ev) (quoteTextOf (pyStrip ev)) context =
         mkEvidence rf rp (quoteTextOf (pyStrip ev))) := by
  have hact : actualCite (quoteTextOf (pyStrip ev)) context (foundCiteOf (pyStrip ev)) =
      foundCiteOf (pyStrip ev) := by
    unfold actualCite
    split
    · rfl
    · rw [hnofind]
  refine ⟨?_, ?_, ?_, ?_⟩
  · have hpg : pageCharsOf d = "N/A".data := by
      unfold pageCharsOf
      rw [hdp]
    by_cases hmode : mode = true
    · by_cases hsn : (pickSnippets order d.content question 3 800).isEmpty = true
      · exact absurd (by simp [blockOf, hmode, hsn]) hblk
      · have hbeq : blockOf mode order question d =
            startMarker (fnameOf d) "N/A".data ++ "\n\n".data ++
              joinWith "\n\n".data
                (pickSnippets order d.content question 3 800 ++
                  [endMarker (fnameOf d) "N/A".data]) ++ "\n\n".data := by
          unfold blockOf
          rw [hmode]
          simp only [if_true, hsn, if_false, Bool.false_eq_true]
          rw [hpg]
          simp only [List.singleton_append, List.cons_append, List.nil_append]
          cases hl : pickSnippets order d.content question 3 800 ++
              [endMarker (fnameOf d) "N/A".data] with
          | nil => exact absurd hl (by simp)
          | cons x xs => rfl
        refine containsSub_of_append _
          ("--- START (Filename: ".data ++ (fnameOf d ++ ", ".data))
          (") ---".data ++ ("\n\n".data ++
            (joinWith "\n\n".data
              (pickSnippets order d.content question 3 800 ++
                [endMarker (fnameOf d) "N/A".data]) ++ "\n\n".data))) _ ?_
        rw [hbeq]
        unfold startMarker
        simp only [List.append_assoc]
        rfl
    · have hbeq : blockOf mode order question d =
          "\n\n".data ++ startMarker (fnameOf d) "N/A".data ++ "\n\n".data ++
            d.content ++ "\n\n".data ++ endMarker (fnameOf d) "N/A".data ++
              "\n\n".data := by
        unfold blockOf
        rw [if_neg (by simpa using hmode), hpg]
      refine containsSub_of_append _
        ("\n\n".data ++ ("--- START (Filename: ".data ++ (fnameOf d ++ ", ".data)))
        (") ---".data ++ ("\n\n".data ++ (d.content ++ ("\n\n".data ++
          (endMarker (fnameOf d) "N/A".data ++ "\n\n".data))))) _ ?_
      rw [hbeq]
      unfold startMarker
      simp only [List.append_assoc]
      rfl
  · intro f p b hmem
    obtain ⟨hf, hp, hd⟩ := scanBlocks_wf context f p b hmem
    refine ⟨hp, hd, ?_⟩
    intro hpe
    rw [hpe] at hd
    revert hd
    decide
  · unfold parseGeminiResponse
    rw [hstat]
    simp only [if_true]
    rw [hev]
    simp only [hne, Bool.false_eq_true, if_false]
  · unfold evidenceOf
    rw [hact]
    rcases hfc : foundCiteOf (pyStrip ev) with ⟨of1, of2⟩
    dsimp only
    split
    · next hcond =>
      simp only [Bool.and_eq_true] at hcond
      obtain ⟨⟨hq, h1⟩, h2⟩ := hcond
      cases of1 with
      | none => cases h1
      | some rf =>
        cases of2 with
        | none => cases h2
        | some rp =>
          right
          exact ⟨rf, rp, rfl, by simp⟩
    · left
      rfl

def c10Doc : StoreDoc := ⟨some "F.pdf".data, none, "hello policy text".data⟩

def c10Context : List Char := blockOf false [] "q".data c10Doc

def c10Resp : List Char :=
  "STATUS: Met\nEVIDENCE: (From Filename: G.pdf, Page: 1) \"hello policy text\"".data

def c10Ev : List Char :=
  " (From Filename: G.pdf, Page: 1) \"hello policy text\"".data

/-- Closed instance discharging the hypotheses of
`na_page_blocks_unscannable`: the context is exactly the `Page: N/A` block
of a page-less store result, the model quotes text that occurs only there,
and the verifier keeps the model's claimed `(G.pdf, 1)` citation. -/
theorem na_page_blocks_unscannable_witness :
    containsSub "Page: N/A".data (blockOf false [] "q".data c10Doc) = true ∧
    (∀ f p b, (f, p, b) ∈ scanBlocks c10Context →
      p ≠ [] ∧ p.all Char.isDigit = true ∧ p ≠ "N/A".data) ∧
    parseGeminiResponse c10Resp c10Context =
      ("Met".data, evidenceOf (pyStrip c10Ev) (quoteTextOf (pyStrip c10Ev)) c10Context) ∧
    (evidenceOf (pyStrip c10Ev) (quoteTextOf (pyStrip c10Ev)) c10Context = pyStrip c10Ev ∨
     ∃ rf rp, foundCiteOf (pyStrip c10Ev) = (some rf, some rp) ∧
       evidenceOf (pyStrip c10Ev) (quoteTextOf (pyStrip c10Ev)) c10Context =
         mkEvidence rf rp (quoteTextOf (pyStrip c10Ev))) :=
  na_page_blocks_unscannable false [] "q".data c10Doc rfl (by decide)
    c10Resp c10Context c10Ev (by decide) (by decide) (by decide) (by decide)

/-- One Verdict record `{question, status, evidence}` as returned to the
caller. -/
structure Verdict where
  question : List Char
  status : List Char
  evidence : List Char
deriving DecidableEq

/-- The body of `analyze_single_question_task` in `upload_audit_pdf`.  The
fallible external part of the pipeline (`analyze_question_with_gemini`,
whose store query and model call are outside this embedding) is abstracted
as `callModel`, giving either the raw response text together with the
Context used, or the message of the exception raised; an exception becomes
an `Error` verdict carrying the question text and the message. -/
def analyzeSingleQuestionTask
    (callModel : List Char → Except (List Char) (List Char × List Char))
    (q : List Char) : Verdict :=
  match callModel q with
  | .ok (text, usedContext) =>
    { question := q
      status := (parseGeminiResponse text usedContext).1
      evidence := (parseGeminiResponse text usedContext).2 }
  | .error m =>
    { question := q
      status := "Error".data
      evidence := "Analysis failed: ".data ++ m }

/-- `executor.map(analyze_single_question_task, questions)`:
`ThreadPoolExecutor.map` yields results in submission order regardless of
completion order, which is `List.map` of the per-question task. -/
def orchestrate (callModel : List Char → Except (List Char) (List Char × List Char))
    (questions : List (List Char)) : List Verdict :=
  questions.map (analyzeSingleQuestionTask callModel)

theorem analyzeSingleQuestionTask_question (callModel) (q : List Char) :
    (analyzeSingleQuestionTask callModel q).question = q := by
  unfold analyzeSingleQuestionTask
  split
  · rfl
  · rfl

/-- C7: the Orchestrator returns one Verdict per question, in input order;
the i-th verdict depends only on the i-th question and carries its text, and
a per-question exception becomes an `Error` verdict with the question text
and the error message, leaving all other questions' verdicts unaffected. -/
theorem orchestrate_order_and_isolation
    (callModel : List Char → Except (List Char) (List Char × List Char))
    (questions : List (List Char)) :
    (orchestrate callModel questions).length = questions.length ∧
    (∀ i (h : i < (orchestrate callModel questions).length)
        (h' : i < questions.length),
      ((orchestrate callModel questions).get ⟨i, h⟩).question =
        questions.get ⟨i, h'⟩ ∧
      (orchestrate callModel questions).get ⟨i, h⟩ =
        analyzeSingleQuestionTask callModel (questions.get ⟨i, h'⟩) ∧
      (∀ m, callModel (questions.get ⟨i, h'⟩) = .error m →
        (orchestrate callModel questions).get ⟨i, h⟩ =
          ⟨questions.get ⟨i, h'⟩, "Error".data, "Analysis failed: ".data ++ m⟩)) := by
  refine ⟨List.length_map _ _, ?_⟩
  intro i h h'
  have hget : (orchestrate callModel questions).get ⟨i, h⟩ =
      analyzeSingleQuestionTask callModel (questions.get ⟨i, h'⟩) := by
    unfold orchestrate
    rw [List.get_map]
  refine ⟨?_, hget, ?_⟩
  · rw [hget]
    exact analyzeSingleQuestionTask_question callModel _
  · intro m hm
    rw [hget]
    unfold analyzeSingleQuestionTask
    rw [hm]

/-- Closed instance discharging the hypotheses of
`orchestrate_order_and_isolation`: two questions, the second of which
raises. -/
theorem orchestrate_order_and_isolation_witness :
    ((orchestrate
        (fun q => if q = "bad question".data
          then .error "boom".data
          else .ok ("STATUS: Not Met".data, "ctx".data))
        ["good question".data, "bad question".data]).length = 2 ∧
      True) ∧
    ((orchestrate
        (fun q => if q = "bad question".data
          then .error "boom".data
          else .ok ("STATUS: Not Met".data, "ctx".data))
        ["good question".data, "bad question".data]).get
        ⟨1, by decide⟩).question = "bad question".data :=
  ⟨⟨((orchestrate_order_and_isolation
      (fun q => if q = "bad question".data
        then .error "boom".data
        else .ok ("STATUS: Not Met".data, "ctx".data))
      ["good question".data, "bad question".data]).1), trivial⟩,
   ((orchestrate_order_and_isolation
      (fun q => if q = "bad question".data
        then .error "boom".data
        else .ok ("STATUS: Not Met".data, "ctx".data))
      ["good question".data, "bad question".data]).2 1 (by decide) (by decide)).1⟩

theorem stripCI_some_length {p s t : List Char} (h : stripCI p s = some t) :
    t.length + p.length = s.length := by
  unfold stripCI at h
  split at h
  · next hpre =>
    have hle : p.length ≤ s.length := by
      have hpre2 : (lower p).isPrefixOf (lower s) = true := hpre
      have hl := (List.isPrefixOf_iff_prefix.mp hpre2).length_le
      simpa [lower] using hl
    simp only [Option.some.injEq] at h
    rw [← h]
    simp only [List.length_drop]
    omega
  · cases h

theorem consumeChar_some_length {c : Char} {s t : List Char}
    (h : consumeChar c s = some t) : t.length + 1 = s.length := by
  cases s with
  | nil => cases h
  | cons x xs =>
    simp only [consumeChar] at h
    by_cases hx : x = c
    · rw [if_pos hx] at h
      simp only [Option.some.injEq] at h
      rw [← h]
      rfl
    · rw [if_neg hx] at h
      cases h

theorem splitFirstCI_some_length {n : List Char} :
    ∀ {s b r : List Char}, splitFirstCI n s = some (b, r) → r.length ≤ s.length := by
  intro s
  induction s with
  | nil =>
    intro b r h
    rw [splitFirstCI] at h
    split at h
    · simp only [Option.some.injEq, Prod.mk.injEq] at h
      rw [← h.2]
    · cases h
  | cons c t ih =>
    intro b r h
    rw [splitFirstCI] at h
    split at h
    · simp only [Option.some.injEq, Prod.mk.injEq] at h
      rw [← h.2]
      simp only [List.length_drop, List.length_cons]
      omega
    · rcases hs : splitFirstCI n t with _ | ⟨b2, r2⟩
      · rw [hs] at h; cases h
      · rw [hs] at h
        simp only [Option.map_some', Option.some.injEq, Prod.mk.injEq] at h
        have := ih hs
        rw [← h.2]
        simp only [List.length_cons]
        omega

theorem matchBlockAt_rest_length {s f p b rest : List Char}
    (h : matchBlockAt s = some (f, p, b, rest)) : rest.length < s.length := by
  unfold matchBlockAt at h
  rcases h1 : stripCI "--- START (Filename: ".data s with _ | t1
  · rw [h1] at h; simp at h
  rw [h1] at h
  simp only [Option.some_bind] at h
  have hl1 := stripCI_some_length h1
  split at h
  · cases h
  rcases h2 : consumeChar ','
      (t1.drop (t1.takeWhile (fun c => c ≠ ',')).length) with _ | t2
  · rw [h2] at h; simp at h
  rw [h2] at h
  simp only [Option.some_bind] at h
  have hl2 := consumeChar_some_length h2
  rcases h3 : stripCI " Page: ".data t2 with _ | t3
  · rw [h3] at h; simp at h
  rw [h3] at h
  simp only [Option.some_bind] at h
  have hl3 := stripCI_some_length h3
  split at h
  · cases h
  rcases h4 : stripCI ") ---\n\n".data
      (t3.drop (t3.takeWhile Char.isDigit).length) with _ | t4
  · rw [h4] at h; simp at h
  rw [h4] at h
  simp only [Option.some_bind] at h
  have hl4 := stripCI_some_length h4
  rcases h5 : splitFirstCI (endMarker (t1.takeWhile (fun c => c ≠ ','))
      (t3.takeWhile Char.isDigit)) t4 with _ | br
  · rw [h5] at h; simp at h
  rw [h5] at h
  simp only [Option.map_some'] at h
  simp only [Option.some.injEq, Prod.mk.injEq] at h
  obtain ⟨br1, br2⟩ := br
  obtain ⟨_, _, _, hr⟩ := h
  have hr2 : br2 = rest := hr
  have hl5 : br2.length ≤ t4.length := splitFirstCI_some_length h5
  have hd1 : (t1.drop (t1.takeWhile (fun c => c ≠ ',')).length).length ≤ t1.length := by
    simp only [List.length_drop]
    omega
  have hd2 : (t3.drop (t3.takeWhile Char.isDigit).length).length ≤ t3.length := by
    simp only [List.length_drop]
    omega
  have hlit1 : ("--- START (Filename: ".data : List Char).length = 21 := rfl
  have hlit2 : (" Page: ".data : List Char).length = 7 := rfl
  have hlit3 : (") ---\n\n".data : List Char).length = 7 := rfl
  rw [← hr2]
  omega

theorem scanBlocksAux_nil (fuel : Nat) : scanBlocksAux fuel [] = [] := by
  cases fuel with
  | zero => rfl
  | succ n => rfl

theorem scanBlocksAux_fuel (fuel1 : Nat) : ∀ (fuel2 : Nat) (s : List Char),
    s.length ≤ fuel1 → s.length ≤ fuel2 →
    scanBlocksAux fuel1 s = scanBlocksAux fuel2 s := by
  induction fuel1 with
  | zero =>
    intro fuel2 s h1 _
    have hs : s = [] := List.length_eq_zero.mp (by omega)
    subst hs
    rw [scanBlocksAux_nil, scanBlocksAux_nil]
  | succ n ih =>
    intro fuel2 s h1 h2
    cases s with
    | nil => rw [scanBlocksAux_nil, scanBlocksAux_nil]
    | cons c t =>
      cases fuel2 with
      | zero => simp at h2
      | succ m =>
        simp only [scanBlocksAux]
        cases hm : matchBlockAt (c :: t) with
        | some q =>
          obtain ⟨f, p, b, rest⟩ := q
          have hlen := matchBlockAt_rest_length hm
          simp only [List.length_cons] at h1 h2
          simp only [List.length_cons] at hlen
          dsimp only
          rw [ih m rest (by omega) (by omega)]
        | none =>
          dsimp only
          simp only [List.length_cons] at h1 h2
          exact ih m t (by omega) (by omega)

theorem lower_append (a b : List Char) : lower (a ++ b) = lower a ++ lower b := by
  simp [lower]

theorem isPrefixCI_self_append (l y : List Char) : isPrefixCI l (l ++ y) = true := by
  unfold isPrefixCI
  rw [lower_append]
  exact List.isPrefixOf_iff_prefix.mpr (List.prefix_append _ _)

theorem stripCI_self_append (l y : List Char) : stripCI l (l ++ y) = some y := by
  unfold stripCI
  rw [if_pos (isPrefixCI_self_append l y), List.drop_left]

theorem containsSub_cons_false {n : List Char} {c : Char} {x : List Char}
    (h : containsSub n (c :: x) = false) : containsSub n x = false := by
  unfold containsSub at h ⊢
  rw [firstInfixPos] at h
  split at h
  · cases h
  · cases hfi : firstInfixPos n x with
    | none => rfl
    | some k => rw [hfi] at h; simp at h

theorem prefix_append_take (l X Y : List Char) (n : Nat)
    (h : l <+: X ++ Y) (hlen : l.length ≤ X.length + n) :
    l <+: X ++ Y.take n := by
  rw [List.prefix_iff_eq_take] at h ⊢
  rw [List.take_append_eq_append_take] at h ⊢
  rw [List.take_take]
  have hmin : min (l.length - X.length) n = l.length - X.length := by omega
  rw [hmin]
  exact h

/-- The body-cleanliness condition of the round-trip theorem: the scanned
body must not contain (case-insensitively, including occurrences that
overlap into the real end marker) the 7-character head `--- END` of an end
marker before the marker's true position. -/
def BodyClean (B : List Char) : Prop :=
  containsSub "--- end".data (lower (B ++ "--- EN".data)) = false

theorem splitFirstCI_self (needle R : List Char) (hne : needle ≠ []) :
    splitFirstCI needle (needle ++ R) = some ([], R) := by
  cases hs : needle ++ R with
  | nil =>
    rcases List.append_eq_nil.mp hs with ⟨h1, _⟩
    exact absurd h1 hne
  | cons a u =>
    rw [splitFirstCI, ← hs, if_pos (isPrefixCI_self_append needle R),
      List.drop_left]

theorem splitFirstCI_body (needle : List Char)
    (h7 : (lower needle).take 7 = "--- end".data) (hlen7 : 7 ≤ needle.length) :
    ∀ (B R : List Char), BodyClean B →
      splitFirstCI needle (B ++ (needle ++ R)) = some (B, R) := by
  have hne : needle ≠ [] := by
    intro h
    rw [h] at hlen7
    simp at hlen7
  intro B
  induction B with
  | nil =>
    intro R _
    rw [List.nil_append]
    exact splitFirstCI_self needle R hne
  | cons c t ih =>
    intro R hclean
    have hnp : isPrefixCI needle ((c :: t) ++ (needle ++ R)) = false := by
      cases hx : isPrefixCI needle ((c :: t) ++ (needle ++ R)) with
      | false => rfl
      | true =>
        exfalso
        have hpre : lower needle <+: lower ((c :: t) ++ (needle ++ R)) :=
          List.isPrefixOf_iff_prefix.mp hx
        have h7p : ("--- end".data : List Char) <+:
            lower ((c :: t) ++ (needle ++ R)) := by
          rw [← h7]
          exact (List.take_prefix 7 (lower needle)).trans hpre
        rw [lower_append, lower_append] at h7p
        have hwin := prefix_append_take _ _ _ 6 h7p (by simp [lower])
        have hY6 : (lower needle ++ lower R).take 6 = "--- en".data := by
          rw [List.take_append_eq_append_take]
          have hn6 : (lower needle).take 6 = "--- en".data := by
            have h67 : (lower needle).take 6 = ((lower needle).take 7).take 6 := by
              rw [List.take_take]
              norm_num
            rw [h67, h7]
            rfl
          have hlen : (lower needle).length = needle.length := by simp [lower]
          have h0 : 6 - (lower needle).length = 0 := by omega
          rw [hn6, h0]
          simp
        rw [hY6] at hwin
        rcases hwin with ⟨w, hw⟩
        have hcs : containsSub "--- end".data
            (lower (c :: t) ++ "--- en".data) = true := by
          refine containsSub_of_append _ [] w _ ?_
          rw [List.nil_append, ← hw]
        have hclean2 : containsSub "--- end".data
            (lower (c :: t) ++ "--- en".data) = false := by
          have := hclean
          unfold BodyClean at this
          rw [lower_append] at this
          exact this
        rw [hcs] at hclean2
        cases hclean2
    have hcleant : BodyClean t := by
      unfold BodyClean at hclean ⊢
      have hcons : lower ((c :: t) ++ "--- EN".data) =
          c.toLower :: lower (t ++ "--- EN".data) := by
        simp [lower]
      rw [hcons] at hclean
      exact containsSub_cons_false hclean
    rw [List.cons_append, splitFirstCI]
    have hnp2 : isPrefixCI needle (c :: (t ++ (needle ++ R))) = false := hnp
    rw [if_neg (by simp [hnp2])]
    rw [ih R hcleant]
    rfl

theorem digitChar_isDigit (d : Nat) : (digitChar d).isDigit = true := by
  unfold digitChar
  split <;> decide

theorem natCharsAux_spec : ∀ (fuel n : Nat) (acc : List Char),
    (∀ c ∈ acc, c.isDigit = true) →
    natCharsAux fuel n acc ≠ [] ∧ (∀ c ∈ natCharsAux fuel n acc, c.isDigit = true) := by
  intro fuel
  induction fuel with
  | zero =>
    intro n acc hacc
    refine ⟨by simp [natCharsAux], ?_⟩
    intro c hc
    simp only [natCharsAux] at hc
    rcases List.mem_cons.mp hc with rfl | hc2
    · exact digitChar_isDigit n
    · exact hacc c hc2
  | succ m ih =>
    intro n acc hacc
    rw [natCharsAux]
    split
    · refine ⟨by simp, ?_⟩
      intro c hc
      rcases List.mem_cons.mp hc with rfl | hc2
      · exact digitChar_isDigit n
      · exact hacc c hc2
    · exact ih (n / 10) (digitChar (n % 10) :: acc)
        (by
          intro c hc
          rcases List.mem_cons.mp hc with rfl | hc2
          · exact digitChar_isDigit _
          · exact hacc c hc2)

theorem natChars_ne_nil (n : Nat) : natChars n ≠ [] :=
  (natCharsAux_spec n n [] (by simp)).1

theorem natChars_digits (n : Nat) : ∀ c ∈ natChars n, c.isDigit = true :=
  (natCharsAux_spec n n [] (by simp)).2

theorem endMarker_take7 (f p : List Char) :
    (lower (endMarker f p)).take 7 = "--- end".data := by
  unfold endMarker
  rw [List.append_assoc, List.append_assoc, List.append_assoc, lower_append]
  rw [List.take_append_eq_append_take]
  have h1 : (lower "--- END (Filename: ".data).take 7 = "--- end".data := rfl
  have h2 : 7 - (lower "--- END (Filename: ".data).length = 0 := rfl
  rw [h1, h2]
  simp

theorem endMarker_len7 (f p : List Char) : 7 ≤ (endMarker f p).length := by
  unfold endMarker
  rw [List.append_assoc, List.append_assoc, List.append_assoc, List.length_append]
  have h19 : ("--- END (Filename: ".data : List Char).length = 19 := rfl
  omega

theorem matchBlockAt_block (f p B R : List Char)
    (hf : f ≠ []) (hfc : ∀ c ∈ f, ¬ c = ',')
    (hp : p ≠ []) (hpd : ∀ c ∈ p, c.isDigit = true)
    (hB : BodyClean B) :
    matchBlockAt (startMarker f p ++ ("\n\n".data ++ (B ++ (endMarker f p ++ R))))
      = some (f, p, B, R) := by
  have hshape : startMarker f p ++ ("\n\n".data ++ (B ++ (endMarker f p ++ R))) =
      "--- START (Filename: ".data ++
        (f ++ (", Page: ".data ++ (p ++ (") ---\n\n".data ++
          (B ++ (endMarker f p ++ R)))))) := by
    unfold startMarker
    simp only [List.append_assoc]
    rfl
  rw [hshape]
  unfold matchBlockAt
  rw [stripCI_self_append]
  simp only [Option.some_bind]
  have htw : (f ++ (", Page: ".data ++ (p ++ (") ---\n\n".data ++
      (B ++ (endMarker f p ++ R)))))).takeWhile (fun c => c ≠ ',') = f := by
    rw [takeWhile_append_of_all _ _ _ (fun c hc => by simpa using hfc c hc)]
    rw [show ((", Page: ".data : List Char) ++ (p ++ (") ---\n\n".data ++
      (B ++ (endMarker f p ++ R))))) = ',' :: (" Page: ".data ++ (p ++ (") ---\n\n".data ++
      (B ++ (endMarker f p ++ R))))) from rfl]
    rw [List.takeWhile_cons]
    simp
  rw [htw]
  rw [if_neg (by simpa using hf)]
  rw [List.drop_left]
  rw [show consumeChar ',' ((", Page: ".data : List Char) ++ (p ++ (") ---\n\n".data ++
    (B ++ (endMarker f p ++ R))))) = some (" Page: ".data ++ (p ++ (") ---\n\n".data ++
    (B ++ (endMarker f p ++ R))))) from rfl]
  simp only [Option.some_bind]
  rw [stripCI_self_append]
  simp only [Option.some_bind]
  have htw2 : (p ++ (") ---\n\n".data ++
      (B ++ (endMarker f p ++ R)))).takeWhile Char.isDigit = p := by
    rw [takeWhile_append_of_all _ _ _ hpd]
    rw [show ((") ---\n\n".data : List Char) ++ (B ++ (endMarker f p ++ R))) =
      ')' :: (" ---\n\n".data ++ (B ++ (endMarker f p ++ R))) from rfl]
    rw [List.takeWhile_cons]
    simp
  rw [htw2]
  rw [if_neg (by simpa using hp)]
  rw [List.drop_left]
  rw [stripCI_self_append]
  simp only [Option.some_bind]
  rw [splitFirstCI_body (endMarker f p) (endMarker_take7 f p) (endMarker_len7 f p)
    B R hB]
  rfl

theorem startMarker_len (f p : List Char) : 21 ≤ (startMarker f p).length := by
  unfold startMarker
  rw [List.append_assoc, List.append_assoc, List.append_assoc, List.length_append]
  have h21 : ("--- START (Filename: ".data : List Char).length = 21 := rfl
  omega

theorem scanBlocks_newline (x : List Char) : scanBlocks ('\n' :: x) = scanBlocks x := rfl

theorem scanBlocks_cons_block (f p B tail : List Char)
    (hf : f ≠ []) (hfc : ∀ c ∈ f, ¬ c = ',')
    (hp : p ≠ []) (hpd : ∀ c ∈ p, c.isDigit = true)
    (hB : BodyClean B) :
    scanBlocks (startMarker f p ++ ("\n\n".data ++ (B ++ (endMarker f p ++
      ("\n\n".data ++ tail))))) = (f, p, B) :: scanBlocks tail := by
  have hm := matchBlockAt_block f p B ("\n\n".data ++ tail) hf hfc hp hpd hB
  have hrest := matchBlockAt_rest_length hm
  unfold scanBlocks
  cases hL : (startMarker f p ++ ("\n\n".data ++ (B ++ (endMarker f p ++
      ("\n\n".data ++ tail))))).length with
  | zero =>
    exfalso
    rw [List.length_append] at hL
    have := startMarker_len f p
    omega
  | succ m =>
    simp only [scanBlocksAux]
    rw [hm]
    dsimp only
    have hle : ("\n\n".data ++ tail).length ≤ m := by omega
    rw [scanBlocksAux_fuel m ("\n\n".data ++ tail).length ("\n\n".data ++ tail) hle
      (Nat.le_refl _)]
    have hnn : ("\n\n".data : List Char) ++ tail = '\n' :: ('\n' :: tail) := rfl
    rw [hnn]
    have h1 : scanBlocksAux ('\n' :: ('\n' :: tail)).length ('\n' :: ('\n' :: tail)) =
        scanBlocks tail := by
      have := scanBlocks_newline ('\n' :: tail)
      have h2 := scanBlocks_newline tail
      unfold scanBlocks at this h2 ⊢
      rw [this, h2]
    rw [h1]
    rfl

/-- The inner text of a block as the scanner captures it: the emitted
snippets (or the page content) together with the trailing blank-line
separator that precedes the END marker. -/
def innerOf (mode : Bool) (order : List (List Char)) (question : List Char)
    (d : StoreDoc) : List Char :=
  if mode then
    joinWith "\n\n".data (pickSnippets order d.content question 3 800) ++ "\n\n".data
  else d.content ++ "\n\n".data

/-- Conditions under which the Verifier's scanner recovers an emitted block
exactly: non-empty comma-free filename, present page number, a non-empty
block, and a body free of end-marker look-alikes. -/
def CleanDoc (mode : Bool) (order : List (List Char)) (question : List Char)
    (d : StoreDoc) : Prop :=
  fnameOf d ≠ [] ∧ (∀ c ∈ fnameOf d, ¬ c = ',') ∧ d.pageNumber ≠ none ∧
    blockOf mode order question d ≠ [] ∧
    BodyClean (innerOf mode order question d)

instance (B : List Char) : Decidable (BodyClean B) :=
  inferInstanceAs (Decidable (containsSub "--- end".data (lower (B ++ "--- EN".data)) = false))

instance (mode : Bool) (order : List (List Char)) (question : List Char)
    (d : StoreDoc) : Decidable (CleanDoc mode order question d) :=
  inferInstanceAs (Decidable (fnameOf d ≠ [] ∧ (∀ c ∈ fnameOf d, ¬ c = ',') ∧
    d.pageNumber ≠ none ∧ blockOf mode order question d ≠ [] ∧
    BodyClean (innerOf mode order question d)))

theorem joinWith_cons (sep x : List Char) (xs : List (List Char)) (h : xs ≠ []) :
    joinWith sep (x :: xs) = x ++ sep ++ joinWith sep xs := by
  cases xs with
  | nil => exact absurd rfl h
  | cons b bs => rfl

theorem joinWith_append_singleton (sep y : List Char) :
    ∀ xs : List (List Char), xs ≠ [] →
      joinWith sep (xs ++ [y]) = joinWith sep xs ++ sep ++ y := by
  intro xs
  induction xs with
  | nil => intro h; exact absurd rfl h
  | cons a as ih =>
    intro _
    cases as with
    | nil => rfl
    | cons b bs =>
      have h1 : joinWith sep ((a :: b :: bs) ++ [y]) =
          a ++ sep ++ joinWith sep ((b :: bs) ++ [y]) := rfl
      have h2 : joinWith sep (a :: b :: bs) = a ++ sep ++ joinWith sep (b :: bs) := rfl
      rw [h1, ih (by simp), h2]
      simp [List.append_assoc]

theorem scanBlocks_flatten_blocks (mode : Bool) (order : List (List Char))
    (question : List Char) :
    ∀ ds : List StoreDoc, (∀ d ∈ ds, CleanDoc mode order question d) →
      scanBlocks ((ds.map (blockOf mode order question)).flatten) =
        ds.map (fun d => (fnameOf d, pageCharsOf d, innerOf mode order question d)) := by
  intro ds
  induction ds with
  | nil => intro _; rfl
  | cons d rest ih =>
    intro hcl
    obtain ⟨hf, hfc, hpn, hbne, hbc⟩ := hcl d (by simp)
    obtain ⟨n, hn⟩ := Option.ne_none_iff_exists'.mp hpn
    have hpg : pageCharsOf d = natChars n := by
      unfold pageCharsOf
      rw [hn]
    have hpne : pageCharsOf d ≠ [] := by
      rw [hpg]
      exact natChars_ne_nil n
    have hpdig : ∀ c ∈ pageCharsOf d, c.isDigit = true := by
      rw [hpg]
      exact natChars_digits n
    simp only [List.map_cons, List.flatten_cons]
    cases mode with
    | true =>
      have hsne : (pickSnippets order d.content question 3 800).isEmpty = false := by
        cases hx : (pickSnippets order d.content question 3 800).isEmpty with
        | false => rfl
        | true =>
          exfalso
          apply hbne
          simp [blockOf, hx]
      have hsnil : pickSnippets order d.content question 3 800 ≠ [] := by
        intro hx
        rw [hx] at hsne
        cases hsne
      have hbform : blockOf true order question d ++
          ((rest.map (blockOf true order question)).flatten) =
          startMarker (fnameOf d) (pageCharsOf d) ++ ("\n\n".data ++
            (innerOf true order question d ++ (endMarker (fnameOf d) (pageCharsOf d) ++
              ("\n\n".data ++ (rest.map (blockOf true order question)).flatten)))) := by
        unfold blockOf innerOf
        simp only [if_true, hsne, Bool.false_eq_true, if_false]
        rw [show ([startMarker (fnameOf d) (pageCharsOf d)] ++
            pickSnippets order d.content question 3 800 ++
            [endMarker (fnameOf d) (pageCharsOf d)]) =
          startMarker (fnameOf d) (pageCharsOf d) ::
            (pickSnippets order d.content question 3 800 ++
              [endMarker (fnameOf d) (pageCharsOf d)]) from by simp]
        rw [joinWith_cons _ _ _ (by simp)]
        rw [joinWith_append_singleton _ _ _ hsnil]
        simp [List.append_assoc]
      rw [hbform]
      rw [scanBlocks_cons_block _ _ _ _ hf hfc hpne hpdig hbc]
      rw [ih (fun x hx => hcl x (by simp [hx]))]
    | false =>
      have hbform : blockOf false order question d ++
          ((rest.map (blockOf false order question)).flatten) =
          '\n' :: ('\n' :: (startMarker (fnameOf d) (pageCharsOf d) ++ ("\n\n".data ++
            (innerOf false order question d ++ (endMarker (fnameOf d) (pageCharsOf d) ++
              ("\n\n".data ++ (rest.map (blockOf false order question)).flatten)))))) := by
        unfold blockOf innerOf
        simp only [Bool.false_eq_true, if_false]
        simp [List.append_assoc]
      rw [hbform, scanBlocks_newline, scanBlocks_newline]
      rw [scanBlocks_cons_block _ _ _ _ hf hfc hpne hpdig hbc]
      rw [ih (fun x hx => hcl x (by simp [hx]))]

def c4Doc : StoreDoc := ⟨some "a,b.pdf".data, some 1, "hello".data⟩

/-- C4 is false as stated: for a stored page whose filename contains a
comma, the Assembler emits a well-formed block, but the Verifier's scanning
regex (whose filename group is `[^,]+`) cannot match it, so the scanner
finds strictly fewer blocks than the Assembler emitted. -/
theorem assembler_scanner_mismatch :
    (contextParts false [] "q".data [c4Doc]).length = 1 ∧
    scanBlocks ((contextParts false [] "q".data [c4Doc]).flatten) = [] :=
  ⟨by decide, by decide⟩

/-- C4 (amended): for every context produced by `find_relevant_context`
whose accepted store results are clean — non-empty comma-free filenames,
present page numbers, non-empty blocks, and snippet/content bodies free of
end-marker look-alikes — the Verifier's block scanner recovers exactly the
blocks the Assembler emitted, in order, with identical filename and page on
the paired START/END markers and the emitted inner text (up to the trailing
blank-line separator, which the scanner's lazy body group includes). -/
theorem assembler_scanner_roundtrip (mode : Bool) (order : List (List Char))
    (question : List Char) (docs : List StoreDoc)
    (hclean : ∀ d ∈ acceptDocs (blockOf mode order question) docs 0 false,
      CleanDoc mode order question d) :
    scanBlocks ((contextParts mode order question docs).flatten) =
      (acceptDocs (blockOf mode order question) docs 0 false).map
        (fun d => (fnameOf d, pageCharsOf d, innerOf mode order question d)) := by
  unfold contextParts
  exact scanBlocks_flatten_blocks mode order question _ hclean

/-- Closed instance discharging the hypothesis of
`assembler_scanner_roundtrip` on a two-page store. -/
theorem assembler_scanner_roundtrip_witness :
    scanBlocks ((contextParts false [] "q".data
        [⟨some "F.pdf".data, some 7, "alpha beta".data⟩,
         ⟨some "G.pdf".data, some 2, "hello world".data⟩]).flatten) =
      (acceptDocs (blockOf false [] "q".data)
        [⟨some "F.pdf".data, some 7, "alpha beta".data⟩,
         ⟨some "G.pdf".data, some 2, "hello world".data⟩] 0 false).map
        (fun d => (fnameOf d, pageCharsOf d, innerOf false [] "q".data d)) :=
  assembler_scanner_roundtrip false [] "q".data
    [⟨some "F.pdf".data, some 7, "alpha beta".data⟩,
     ⟨some "G.pdf".data, some 2, "hello world".data⟩] (by decide)

end Readily
